import Mathlib

/-!
A shallow embedding of the Presto official-templates converter
(`gongwen/main.go` together with `internal/typst/escape.go` and the Typst
layout program it emits), with theorems checking the repository's
specification claims against it.

Strings are modelled as `String` / `List Char` (Go iterates runes; every
byte-level operation of the source touches only ASCII delimiters, which on
UTF-8 agrees with the rune-level reading; where the source uses byte
offsets — the punctuation normalizer's skip spans — the embedding computes
the same byte offsets via UTF-8 widths).  Go's `int` is 64-bit on every
release target of this repository; the one place where its range matters
(`strconv.Atoi` inside `processMarker`) models the saturation that
`strconv.ParseInt` documents for out-of-range input.
-/

namespace Presto

/-! ## Go standard-library string primitives used by the source -/
/-- `unicode.IsSpace`: Go's White_Space property. -/
def goIsSpace (c : Char) : Bool :=
  c = '\t' || c = '\n' || c = (Char.ofNat 0x0B) || c = (Char.ofNat 0x0C) ||
  c = '\r' || c = ' ' || c.toNat = 0x85 || c.toNat = 0xA0 ||
  c.toNat = 0x1680 || (0x2000 ≤ c.toNat && c.toNat ≤ 0x200A) ||
  c.toNat = 0x2028 || c.toNat = 0x2029 || c.toNat = 0x202F ||
  c.toNat = 0x205F || c.toNat = 0x3000

/-- `unicode.IsDigit`: true exactly on Unicode category Nd.  The embedding
lists the ASCII and full-width digit ranges; the other Nd ranges never occur
in this repository's domain, and no character this converter inserts or
replaces lies in Nd, so the theorems below are insensitive to the rest of
the table. -/
def unicodeIsDigit (c : Char) : Bool :=
  ('0' ≤ c && c ≤ '9') || (0xFF10 ≤ c.toNat && c.toNat ≤ 0xFF19)

/-- `strings.HasPrefix` on rune lists (all patterns used are ASCII, so the
byte-level and rune-level readings agree). -/
def goStartsWith (cs pat : List Char) : Bool :=
  decide (pat <+: cs)

/-- `strings.HasSuffix` on rune lists. -/
def goEndsWith (cs pat : List Char) : Bool :=
  decide (pat <:+ cs)

/-- `strings.TrimSuffix`. -/
def goTrimSuffix (cs pat : List Char) : List Char :=
  if goEndsWith cs pat then cs.take (cs.length - pat.length) else cs

/-- `strings.TrimRight` with an explicit cutset. -/
def goTrimRightIn (cs : List Char) (cutset : List Char) : List Char :=
  (cs.reverse.dropWhile (fun c => cutset.contains c)).reverse

/-- `strings.TrimSpace`. -/
def goTrimSpace (cs : List Char) : List Char :=
  (cs.dropWhile goIsSpace).reverse.dropWhile goIsSpace |>.reverse

/-- `strings.TrimLeft(s, "0")` as used by `formatDate`. -/
def goTrimLeftZeros (cs : List Char) : List Char :=
  cs.dropWhile (fun c => c = '0')

/-- First index at which `pat` occurs as a sublist of `cs`, like
`strings.Index` (-1 becomes `none`). -/
def goIndexOf : List Char → List Char → Option Nat
  | _, [] => some 0
  | [], _ :: _ => none
  | c :: rest, pat =>
    if goStartsWith (c :: rest) pat then some 0
    else (goIndexOf rest pat).map (· + 1)

/-- `strings.Contains`. -/
def goContains (cs pat : List Char) : Bool :=
  (goIndexOf cs pat).isSome

/-- `strings.ReplaceAll` for a single-rune pattern: each occurrence of the
pattern is one rune, so the leftmost non-overlapping replacement is
exactly a per-rune expansion. -/
def replaceAllChar (cs : List Char) (old : Char) (new : List Char) : List Char :=
  cs.flatMap (fun c => if c = old then new else [c])

/-- `strings.ReplaceAll(s, "\r\n", "\n")`: leftmost, non-overlapping —
at each position, a "\r\n" pair collapses to '\n', otherwise the rune is
copied and scanning continues after it. -/
def replaceCRLF : List Char → List Char
  | [] => []
  | [c] => [c]
  | c :: d :: rest =>
    if c = '\r' ∧ d = '\n' then '\n' :: replaceCRLF rest
    else c :: replaceCRLF (d :: rest)

end Presto

namespace typst

open Presto

/-! ## `internal/typst/escape.go` -/
/-- `EscapeString` escapes s for safe embedding inside a Typst string
literal `"..."`: neutralizes `\`, `"`, and `#`, in that order of
`strings.ReplaceAll` passes. -/
def EscapeString (s : String) : String :=
  let cs := replaceAllChar s.data '\\' ['\\', '\\']
  let cs := replaceAllChar cs '\"' ['\\', '\"']
  let cs := replaceAllChar cs '#' ['\\', '#']
  String.mk cs

/-- `EscapeContent` escapes s for safe embedding inside a Typst content
block `[...]`: neutralizes `\`, `]`, and `#`. -/
def EscapeContent (s : String) : String :=
  let cs := replaceAllChar s.data '\\' ['\\', '\\']
  let cs := replaceAllChar cs ']' ['\\', ']']
  let cs := replaceAllChar cs '#' ['\\', '#']
  String.mk cs

/-- The per-rune expansion that the three `ReplaceAll` passes of
`EscapeString` compose to. -/
def escStringChar (c : Char) : List Char :=
  if c = '\\' then ['\\', '\\']
  else if c = '\"' then ['\\', '\"']
  else if c = '#' then ['\\', '#']
  else [c]

/-- The per-rune expansion for `EscapeContent`. -/
def escContentChar (c : Char) : List Char :=
  if c = '\\' then ['\\', '\\']
  else if c = ']' then ['\\', ']']
  else if c = '#' then ['\\', '#']
  else [c]

/-- Decoder for both escape maps: a backslash takes the following rune
literally. -/
def unescapeTypst : List Char → List Char
  | '\\' :: c :: rest => c :: unescapeTypst rest
  | c :: rest => c :: unescapeTypst rest
  | [] => []

end typst

namespace Presto

/-! ## `gongwen/main.go` — YAML front matter -/
/-- The shapes a decoded YAML value can take that `parseFrontMatter`
distinguishes (`map[string]interface{}` values); `other` stands for every
remaining `interface{}` shape. -/
inductive YamlVal where
  | str (s : String)
  | boolV (b : Bool)
  | intV (n : Int)
  | seq (items : List YamlVal)
  | other (printed : String)
deriving Repr

mutual

/-- `fmt.Sprintf("%v", v)` on a decoded YAML value. -/
def sprintfV : YamlVal → String
  | .str s => s
  | .boolV b => if b then "true" else "false"
  | .intV n => toString n
  | .seq items => "[" ++ " ".intercalate (sprintfVList items) ++ "]"
  | .other printed => printed

/-- `sprintfV` mapped over a YAML sequence. -/
def sprintfVList : List YamlVal → List String
  | [] => []
  | v :: vs => sprintfV v :: sprintfVList vs

end

/-- A decoded `map[string]interface{}`: key lookup over an association
list (Go map iteration order never matters here — only lookups happen). -/
def yamlLookup (raw : List (String × YamlVal)) (key : String) : Option YamlVal :=
  (raw.find? (fun p => p.1 = key)).map Prod.snd

/-- `strings.ToLower`, used only on the `signature` value; the comparisons
are against ASCII "true"/"yes", so the ASCII lowering is the relevant part. -/
def goToLower (s : String) : String :=
  String.mk (s.data.map (fun c =>
    if 'A' ≤ c && c ≤ 'Z' then Char.ofNat (c.toNat + 32) else c))

structure frontMatter where
  Title : String
  Author : String
  Date : String
  Signature : Bool
deriving Repr, DecidableEq

/-- The defaults `parseFrontMatter` starts from. -/
def defaultFrontMatter : frontMatter :=
  { Title := "请输入文字", Author := "请输入文字", Date := "", Signature := false }

/-- `strings.Join(parts, "、")` over the stringified items of a YAML
sequence. -/
def joinAuthors (items : List YamlVal) : String :=
  "、".intercalate (items.map sprintfV)

/-- `parseFrontMatter` splits "---" delimited YAML from body and returns
metadata + body.  The YAML decoder itself is the external `gopkg.in/yaml.v3`
library, passed in as `yamlParse` (`none` models an Unmarshal error). -/
def parseFrontMatter (yamlParse : String → Option (List (String × YamlVal)))
    (input : String) : frontMatter × String :=
  let fm := defaultFrontMatter
  -- Normalise line endings
  let inputC := replaceCRLF input.data
  if ¬ goStartsWith inputC ['-', '-', '-'] then
    (fm, String.mk inputC)
  else
    -- Find closing ---
    let rest := inputC.drop 3
    let rest := if rest.head? = some '\n' then rest.drop 1 else rest
    match goIndexOf rest ['\n', '-', '-', '-'] with
    | none => (fm, String.mk inputC)
    | some idx =>
      let yamlBlock := rest.take idx
      let body := rest.drop (idx + 4)   -- skip "\n---"
      let body := if body.head? = some '\n' then body.drop 1 else body
      match yamlParse (String.mk yamlBlock) with
      | none => (fm, String.mk body)
      | some raw =>
        let fm := match yamlLookup raw "title" with
          | some v => { fm with Title := sprintfV v }
          | none => fm
        let fm := match yamlLookup raw "author" with
          | some (.str a) => { fm with Author := a }
          | some (.seq items) => { fm with Author := joinAuthors items }
          | _ => fm
        let fm := match yamlLookup raw "date" with
          | some v => { fm with Date := sprintfV v }
          | none => fm
        let fm := match yamlLookup raw "signature" with
          | some (.boolV b) => { fm with Signature := b }
          | some (.str s) =>
            let lower := goToLower s
            { fm with Signature := lower = "true" || lower = "yes" }
          | _ => fm
        (fm, String.mk body)

/-- The regexp `^(\d{4})-(\d{1,2})-(\d{1,2})$` of `formatDate`: returns the
three digit groups on a full match.  `\d` in Go regexp is ASCII `[0-9]`. -/
def dateReMatch (cs : List Char) : Option (List Char × List Char × List Char) :=
  let year := cs.take 4
  if year.length = 4 && year.all Char.isDigit && cs.get? 4 = some '-' then
    let afterYear := cs.drop 5
    let month := afterYear.takeWhile Char.isDigit
    -- \d{1,2} is greedy and must be followed by '-'; a 3-digit run cannot
    -- split as (2 digits)('-') so the greedy match succeeds iff the run
    -- has length 1 or 2 and a '-' follows.
    if (month.length = 1 || month.length = 2) &&
        afterYear.get? month.length = some '-' then
      let day := afterYear.drop (month.length + 1)
      if (day.length = 1 || day.length = 2) && day.all Char.isDigit then
        some (year, month, day)
      else none
    else none
  else none

/-- `formatDate` converts "YYYY-MM-DD" to a `datetime(...)` construct,
otherwise returns a quoted string. -/
def formatDate (date : String) : String :=
  if date = "" then "\"\""
  else match dateReMatch date.data with
    | some (year, month, day) =>
      "datetime(\n  year: " ++ String.mk year ++
      ",\n  month: " ++ String.mk (goTrimLeftZeros month) ++
      ",\n  day: " ++ String.mk (goTrimLeftZeros day) ++ ",\n)"
    | none => "\"" ++ date ++ "\""

/-! ## `gongwen/main.go` — punctuation conversion

`convertPunctuation` skips two kinds of regexp-found spans (URLs and
`{...}` markers), then rewrites runes one by one.  Go's `regexp` package
reports byte offsets; the embedding scans rune-by-rune (every match of
both patterns starts and ends on a rune boundary) and converts the
resulting rune spans to the same byte offsets through UTF-8 widths.  The
scanners take explicit fuel so that they compute by kernel reduction; fuel
`length + 1` always suffices because every step advances the position. -/
/-- `\s` of Go's regexp (RE2 without Unicode classes): `[\t\n\f\r ]`. -/
def reIsSpace (c : Char) : Bool :=
  c = '\t' || c = '\n' || c = (Char.ofNat 0x0C) || c = '\r' || c = ' '

/-- The alternation `https?://|ftp://|mailto:` tried at rune position `i`:
the matched prefix length, if any (the three alternatives start with
distinct letters, and within the first the greedy `s?` prefers "https://";
no two can match at once). -/
def urlPrefixAt (cs : List Char) (i : Nat) : Option Nat :=
  if goStartsWith (cs.drop i) "https://".data then some 8
  else if goStartsWith (cs.drop i) "http://".data then some 7
  else if goStartsWith (cs.drop i) "ftp://".data then some 6
  else if goStartsWith (cs.drop i) "mailto:".data then some 7
  else none

/-- A full match of `urlPattern` anchored at rune position `i`: the prefix
followed by a greedy `[^\s]+` (at least one rune).  Returns the exclusive
end position. -/
def urlMatchAt (cs : List Char) (i : Nat) : Option Nat :=
  match urlPrefixAt cs i with
  | none => none
  | some plen =>
    match (cs.drop (i + plen)).head? with
    | none => none
    | some d =>
      if reIsSpace d then none
      else some (i + plen + ((cs.drop (i + plen)).takeWhile (fun c => !reIsSpace c)).length)

/-- First index `k ≥ j` holding `'}'`, if any. -/
def closeBraceIdx (cs : List Char) (j : Nat) : Option Nat :=
  if j + ((cs.drop j).takeWhile (fun c => c ≠ '}')).length < cs.length
  then some (j + ((cs.drop j).takeWhile (fun c => c ≠ '}')).length) else none

/-- `urlPattern.FindAllStringIndex`: leftmost matches, scanning resumes
after each match end. -/
def urlScanAux (cs : List Char) : Nat → Nat → List (Nat × Nat)
  | 0, _ => []
  | fuel + 1, i =>
    if i < cs.length then
      match urlMatchAt cs i with
      | some e => (i, e) :: urlScanAux cs fuel e
      | none => urlScanAux cs fuel (i + 1)
    else []

def urlSpans (cs : List Char) : List (Nat × Nat) :=
  urlScanAux cs (cs.length + 1) 0

/-- `markerPattern.FindAllStringIndex` for `\{[^}]*\}`: a match starts at a
`'{'` and runs to the first `'}'` after it; scanning resumes past the
match. -/
def markerScanAux (cs : List Char) : Nat → Nat → List (Nat × Nat)
  | 0, _ => []
  | fuel + 1, i =>
    if i < cs.length then
      if cs.getD i ' ' = '{' then
        match closeBraceIdx cs (i + 1) with
        | some k => (i, k + 1) :: markerScanAux cs fuel (k + 1)
        | none => markerScanAux cs fuel (i + 1)
      else markerScanAux cs fuel (i + 1)
    else []

def markerSpans (cs : List Char) : List (Nat × Nat) :=
  markerScanAux cs (cs.length + 1) 0

/-- Byte offset of rune index `i` (what `len(string(runes[:i]))` computes). -/
def bytePos (cs : List Char) (i : Nat) : Nat :=
  ((cs.take i).map Char.utf8Size).sum

/-- The skip spans, in byte offsets, URL spans first then marker spans —
the order `convertPunctuation` appends them in. -/
def skipSpans (cs : List Char) : List (Nat × Nat) :=
  (urlSpans cs ++ markerSpans cs).map (fun sp => (bytePos cs sp.1, bytePos cs sp.2))

/-- The `inSkip` closure: membership of a byte position in any span. -/
def inSkip (spans : List (Nat × Nat)) (pos : Nat) : Bool :=
  spans.any (fun sp => sp.1 ≤ pos && pos < sp.2)

/-- The body of the conversion loop at rune index `i` (`r` of the source
is `runes.getD i ' '`, spelled out so the case split is visible). -/
def replaceRune (runes : List Char) (spans : List (Nat × Nat)) (i : Nat) : Char :=
  if inSkip spans (bytePos runes i) then runes.getD i ' '
  else if runes.getD i ' ' = ',' then '，'
  else if runes.getD i ' ' = ';' then '；'
  else if runes.getD i ' ' = '?' then '？'
  else if runes.getD i ' ' = '(' then '（'
  else if runes.getD i ' ' = ')' then '）'
  else if runes.getD i ' ' = ':' then
    -- Keep colon between digits (e.g. 12:30)
    if 0 < i ∧ i < runes.length - 1 ∧
        unicodeIsDigit (runes.getD (i - 1) ' ') ∧ unicodeIsDigit (runes.getD (i + 1) ' ')
    then ':' else '：'
  else runes.getD i ' '

/-- `convertPunctuation`'s writer loop: the output rune at index `i` is
`replaceRune` of the input at `i`. -/
def convertPunctuationL (runes : List Char) : List Char :=
  (List.range runes.length).map (replaceRune runes (skipSpans runes))

/-- `convertPunctuation` converts half-width punctuation to full-width for
Chinese text. -/
def convertPunctuation (s : String) : String :=
  String.mk (convertPunctuationL s.data)

/-- Rune-index form of the skip test (the byte/rune bridge below shows it
agrees with `inSkip` on byte offsets). -/
def inSkipIdx (cs : List Char) (i : Nat) : Bool :=
  (urlSpans cs ++ markerSpans cs).any (fun sp => sp.1 ≤ i && i < sp.2)

/-- The digit-flanked-colon guard at index `i`. -/
def digitFlanked (runes : List Char) (i : Nat) : Prop :=
  0 < i ∧ i < runes.length - 1 ∧
    unicodeIsDigit (runes.getD (i - 1) ' ') ∧ unicodeIsDigit (runes.getD (i + 1) ' ')

instance (runes : List Char) (i : Nat) : Decidable (digitFlanked runes i) := by
  unfold digitFlanked; infer_instance

/-- The six runes the normalizer may rewrite. -/
def punctIn (c : Char) : Bool :=
  c = ',' || c = ';' || c = '?' || c = '(' || c = ')' || c = ':'

/-- The six runes the normalizer may produce. -/
def punctOut (c : Char) : Bool :=
  c = '，' || c = '；' || c = '？' || c = '（' || c = '）' || c = '：'

/-! ## `gongwen/main.go` — goldmark AST and the Typst renderer

The Markdown parser itself is the external goldmark library; the embedding
starts at its AST.  `ParsedDocument` nodes carry exactly what the
converter reads from them. -/
/-- Inline nodes as the converter consumes them.  `text` carries the
segment value and the soft/hard line-break flags; `strVal` carries an
`ast.String` value (modelled after `html.UnescapeString`, which the
converter applies at every use site); `codeSpan` children are the code
span's nodes, of which only text nodes contribute. -/
inductive Inline where
  | text (value : String) (soft : Bool) (hard : Bool)
  | strVal (value : String)
  | codeSpan (children : List Inline)
  | emphasis (level : Nat) (children : List Inline)
  | link (dest : String) (children : List Inline)
  | autoLink (url : String)
  | image (dest : String) (children : List Inline)
  | rawHTML
deriving Repr

/-- Block nodes as the converter consumes them.  `codeBlock` carries the
fence info string (`none` for an indented code block) and the joined
source lines; `htmlBlock` carries its source lines. -/
inductive Block where
  | paragraph (children : List Inline)
  | heading (level : Nat) (children : List Inline)
  | list (ordered : Bool) (items : List (List Block))
  | codeBlock (info : Option String) (code : String)
  | thematicBreak
  | blockquote (children : List Block)
  | htmlBlock (lines : List String)
deriving Repr

/-- The text a code span contributes: its direct text children's values. -/
def codeSpanText : List Inline → String
  | [] => ""
  | .text v _ _ :: rest => v ++ codeSpanText rest
  | _ :: rest => codeSpanText rest

mutual

/-- `plainText`'s walk over one inline node (pre-order `ast.Walk`): text
values plus a space for a soft break, code-span text, `ast.String` values;
everything else contributes only through its children. -/
def plainTextI : Inline → String
  | .text v soft _ => v ++ (if soft then " " else "")
  | .strVal v => v
  | .codeSpan children => codeSpanText children
  | .emphasis _ children => plainTextList children
  | .link _ children => plainTextList children
  | .autoLink _ => ""
  | .image _ children => plainTextList children
  | .rawHTML => ""

def plainTextList : List Inline → String
  | [] => ""
  | x :: xs => plainTextI x ++ plainTextList xs

end

mutual

/-- `renderInline`: a single inline node to Typst. -/
def renderInline : Inline → String
  | .text v soft hard =>
    convertPunctuation v ++ (if soft then "\n" else "") ++ (if hard then " \\\n" else "")
  | .strVal v => convertPunctuation v
  | .codeSpan children => "`" ++ codeSpanText children ++ "`"
  | .emphasis level children =>
    if level = 2 then "#strong[" ++ renderInlines children ++ "]"
    else "#emph[" ++ renderInlines children ++ "]"
  | .link dest children => "#link(\"" ++ dest ++ "\")[" ++ renderInlines children ++ "]"
  | .autoLink url => "#link(\"" ++ url ++ "\")"
  | .image _ _ => ""
  | .rawHTML => ""

/-- `renderInlines`: the inline children of a node, concatenated. -/
def renderInlines : List Inline → String
  | [] => ""
  | x :: xs => renderInline x ++ renderInlines xs

end

/-- The numeric value of a decimal digit string. -/
def digitsVal (s : String) : Nat :=
  s.data.foldl (fun acc c => acc * 10 + (c.toNat - '0'.toNat)) 0

/-- `strconv.Atoi` on a decimal digit string (the only shape the `{v:N}`
marker passes it): `ParseInt` with 64-bit `int` returns the saturated
`MaxInt64` on range error, and the caller drops the error. -/
def goAtoiDigits (s : String) : Nat :=
  min (digitsVal s) 9223372036854775807

/-- `strings.Join` (Go semantics). -/
def goJoin (sep : String) : List String → String
  | [] => ""
  | [x] => x
  | x :: y :: rest => x ++ sep ++ goJoin sep (y :: rest)

/-- `vMarkerRe = ^\x7bv(?::(\d+))?\x7d$`, returning the optional digit
group on a full match. -/
def vMarkerMatch (cs : List Char) : Option (Option String) :=
  match cs with
  | '{' :: 'v' :: rest =>
    match rest with
    | ['}'] => some none
    | ':' :: rest2 =>
      let digits := rest2.takeWhile Char.isDigit
      if 1 ≤ digits.length ∧ rest2.drop digits.length = ['}']
      then some (some (String.mk digits)) else none
    | _ => none
  | _ => none

/-- `processMarker` checks if text is a standalone marker and returns
Typst code. -/
def processMarker (text : String) : String × Bool :=
  let t := String.mk (goTrimSpace text.data)
  match vMarkerMatch t.data with
  | some m =>
    let count : Nat := match m with
      | some digits => goAtoiDigits digits
      | none => 1
    (goJoin "\n" (List.replicate count "#linebreak(justify: false)") ++ "\n", true)
  | none =>
    if t = "\x7bpagebreak\x7d" then ("#pagebreak()\n", true)
    else if t = "\x7bpagebreak:weak\x7d" then ("#pagebreak(weak: true)\n", true)
    else ("", false)

/-- `stripTrailingMarker` checks for `\x7b.noindent\x7d` or
`\x7bindent\x7d` at end of inline text. -/
def stripTrailingMarker (text : String) : String × String :=
  let t := goTrimRightIn text.data [' ']
  if goEndsWith t "\x7b.noindent\x7d".data then
    (String.mk (goTrimRightIn (goTrimSuffix t "\x7b.noindent\x7d".data) [' ']), "noindent")
  else if goEndsWith t "\x7bindent\x7d".data then
    (String.mk (goTrimRightIn (goTrimSuffix t "\x7bindent\x7d".data) [' ']), "indent")
  else (String.mk t, "")

/-- The mutable converter context: figure counter and header-seen flag
(the `source` field is subsumed by node values).  The counter is a Go
`int`; it only ever increments by 1 per figure, so `Nat` models it. -/
structure ConverterState where
  figureCounter : Nat
  hasSeenHeader : Bool
deriving Repr, DecidableEq

/-- The zero converter `convertBody` allocates per conversion. -/
def initState : ConverterState := ⟨0, false⟩

/-- `collectImages` collects all image nodes among a paragraph's direct
children (destination and alt children). -/
def collectImages (children : List Inline) : List (String × List Inline) :=
  children.filterMap (fun c =>
    match c with
    | .image dest ch => some (dest, ch)
    | _ => none)

/-- `filepath.Base` (slash-separated paths, the build target's separator). -/
def filepathBase (path : String) : String :=
  if path = "" then "."
  else
    let cs := goTrimRightIn path.data ['/']
    if cs = [] then "/"
    else String.mk ((cs.reverse.takeWhile (fun c => c ≠ '/')).reverse)

/-- `filepath.Ext`: the suffix from the final dot of the final element. -/
def filepathExt (name : String) : String :=
  let seg := name.data.reverse.takeWhile (fun c => c ≠ '/')
  let beforeDot := seg.takeWhile (fun c => c ≠ '.')
  if beforeDot.length < seg.length then String.mk ('.' :: beforeDot.reverse) else ""

/-- The filename-derived caption: base name without extension. -/
def imageCaption (path : String) : String :=
  let filename := filepathBase path
  String.mk (goTrimSuffix filename.data (filepathExt filename).data)

/-- `renderSingleImage` generates Typst figure code for a single image. -/
def renderSingleImage (st : ConverterState) (img : String × List Inline) :
    String × ConverterState :=
  let st1 := { st with figureCounter := st.figureCounter + 1 }
  let path := img.1
  let caption := imageCaption path
  ("#figure(\n  context \x7b\n    let img = image(\"" ++
      path ++
      "\")\n    let img-size = measure(img)\n    let x = img-size.width\n    let y = img-size.height\n    let max-size = 13.4cm\n\n    let new-x = x\n    let new-y = y\n\n    if x > max-size \x7b\n      let scale = max-size / x\n      new-x = max-size\n      new-y = y * scale\n    \x7d\n\n    if new-y > max-size \x7b\n      let scale = max-size / new-y\n      new-x = new-x * scale\n      new-y = max-size\n    \x7d\n\n    image(\"" ++
      path ++
      "\", width: new-x, height: new-y)\n  \x7d,\n  caption: [" ++
      caption ++
      "],\n) <fig-" ++
      toString st1.figureCounter ++
      ">\n", st1)

/-- The loop deciding subfigure mode: some image carries non-empty alt
text (plain text of its children). -/
def multiIsSubfigure (images : List (String × List Inline)) : Bool :=
  images.any (fun img => plainTextList img.2 ≠ "")

/-- The shared caption: the first image's alt text, when in subfigure
mode. -/
def multiMainCaption (images : List (String × List Inline)) : String :=
  match images with
  | [] => ""
  | img :: _ => if multiIsSubfigure images then plainTextList img.2 else ""

/-- `strconv.FormatBool`. -/
def goFormatBool (b : Bool) : String := if b then "true" else "false"

/-- The quoted, comma-joined Typst array literal elements. -/
def quoteJoin (items : List String) : String :=
  goJoin ", " (items.map (fun s => "\"" ++ s ++ "\""))

/-- `renderMultiImage` generates Typst code for multiple images in one
paragraph.  The per-image `figNum` values the source computes in
non-subfigure mode only advance the counter; they are not interpolated
into the output. -/
def renderMultiImage (st : ConverterState) (images : List (String × List Inline)) :
    String × ConverterState :=
  let isSubfigure := multiIsSubfigure images
  let st1 := { st with figureCounter :=
    st.figureCounter + (if isSubfigure then 1 else images.length) }
  let paths := images.map (fun img => img.1)
  let captions := images.map (fun img => imageCaption img.1)
  let alts := images.map (fun img => plainTextList img.2)
  let mainCaption := multiMainCaption images
  ("\n#context \x7b\n  let paths = (" ++
      quoteJoin paths ++
      ")\n  let captions = (" ++
      quoteJoin captions ++
      ")\n  let alts = (" ++
      quoteJoin alts ++
      ")\n\n  let is_subfigure = " ++
      goFormatBool isSubfigure ++
      "\n  let main_caption = \"" ++
      mainCaption ++
      "\"\n\n  let gap = 0.3cm\n  let max-width = 13.4cm\n  let min-height = 6cm\n\n  let sizes = paths.zip(captions).zip(alts).map(item => \x7b\n    let p = item.at(0).at(0)\n    let c = item.at(0).at(1)\n    let alt = item.at(1)\n    let img = image(p)\n    let s = measure(img)\n    (width: s.width, height: s.height, path: p, caption: c, alt: alt, ratio: s.width / s.height)\n  \x7d)\n\n  let calc-row-height(imgs, total-width) = \x7b\n    let ratio-sum = imgs.map(i => i.ratio).sum()\n    total-width / ratio-sum\n  \x7d\n\n  let rows = ()\n\n  if is_subfigure \x7b\n    rows.push(sizes)\n  \x7d else \x7b\n    let remaining = sizes\n\n    while remaining.len() > 0 \x7b\n      let row = ()\n      let found = false\n\n      for n in range(1, remaining.len() + 1) \x7b\n        let candidate = remaining.slice(0, n)\n        let gaps = (n - 1) * gap\n        let available-width = max-width - gaps\n        let row-h = calc-row-height(candidate, available-width)\n\n        if row-h < min-height and n > 1 \x7b\n          row = remaining.slice(0, n - 1)\n          remaining = remaining.slice(n - 1)\n          found = true\n          break\n        \x7d\n      \x7d\n\n      if not found \x7b\n        row = remaining\n        remaining = ()\n      \x7d\n\n      rows.push(row)\n    \x7d\n  \x7d\n\n  let render-rows(rows) = \x7b\n    for row in rows \x7b\n      let n = row.len()\n      let gaps = (n - 1) * gap\n      let available-width = max-width - gaps\n      let row-height = calc-row-height(row, available-width)\n\n      if row-height > max-width \x7b\n        row-height = max-width\n      \x7d\n\n      align(center, grid(\n        columns: n,\n        gutter: gap,\n        ..row.enumerate().map(item => \x7b\n          let i = item.at(0)\n          let img-data = item.at(1)\n          let w = row-height * img-data.ratio\n\n          if is_subfigure \x7b\n             let sub-label = numbering(\"a\", i + 1)\n             let sub-text = [ (#sub-label) #img-data.caption ]\n\n             v(0.5em)\n             align(center, block(\x7b\n               image(img-data.path, width: w, height: row-height)\n               align(center, text(font: FONT_FS, size: zh(3))[#sub-text])\n             \x7d))\n          \x7d else \x7b\n             figure(\n               image(img-data.path, width: w, height: row-height),\n               caption: [ #img-data.caption ]\n             )\n          \x7d\n        \x7d)\n      ))\n      if is_subfigure \x7b v(0.5em) \x7d else \x7b v(0.3em) \x7d\n    \x7d\n  \x7d\n\n  if is_subfigure \x7b\n    figure(\n      context \x7b render-rows(rows) \x7d,\n      caption: [ #main_caption ]\n    )\n  \x7d else \x7b\n    render-rows(rows)\n  \x7d\n\x7d\n\n", st1)

/-- The image-free arm of `renderParagraph`: marker paragraphs, trailing
indent markers, the leading colon-label rule, and plain text. -/
def renderTextParagraph (st : ConverterState) (children : List Inline) :
    String × ConverterState :=
  let plain := plainTextList children
  let trimmed := String.mk (goTrimSpace plain.data)
  let pm := processMarker trimmed
  if pm.2 then (pm.1, st)
  else
    let content := renderInlines children
    let marker := (stripTrailingMarker trimmed).2
    if marker = "noindent" then
      let c1 := goTrimRightIn content.data [' ', '\n']
      let c2 := goTrimSuffix c1 "\x7b.noindent\x7d".data
      let c3 := goTrimRightIn c2 [' ']
      ("#block[#set par(first-line-indent: 0pt)\n#block[\n" ++ String.mk c3 ++
        "\n\n]\n]\n", st)
    else if marker = "indent" then
      let c1 := goTrimRightIn content.data [' ', '\n']
      let c2 := goTrimSuffix c1 "\x7bindent\x7d".data
      let c3 := goTrimRightIn c2 [' ']
      (String.mk c3 ++ "\n\n", st)
    else
      if ¬ st.hasSeenHeader ∧
          (goEndsWith (goTrimSpace content.data) "：".data ∨
           goEndsWith (goTrimSpace content.data) ":".data) then
        ("#block[#set par(first-line-indent: 0pt)\n#block[\n" ++ content ++
          "\n\n]\n]\n", st)
      else (content ++ "\n\n", st)

/-- `renderParagraph` renders a paragraph node to Typst. -/
def renderParagraph (st : ConverterState) (children : List Inline) :
    String × ConverterState :=
  match collectImages children with
  | [img] => renderSingleImage st img
  | img1 :: img2 :: rest => renderMultiImage st (img1 :: img2 :: rest)
  | [] => renderTextParagraph st children

/-- `renderHeading` renders a heading node to Typst; every heading sets
the header-seen flag, and level-1 headings render as nothing. -/
def renderHeading (st : ConverterState) (level : Nat) (children : List Inline) :
    String × ConverterState :=
  let st1 := { st with hasSeenHeader := true }
  if level = 1 then ("", st1)
  else
    let content := renderInlines children
    let marker := (stripTrailingMarker (String.mk (goTrimSpace (plainTextList children).data))).2
    if marker = "noindent" then
      let c1 := goTrimRightIn content.data [' ', '\n']
      let c2 := goTrimSuffix c1 "\x7b.noindent\x7d".data
      let c3 := goTrimRightIn c2 [' ']
      ("#block[#set par(first-line-indent: 0pt)\n" ++ String.mk (List.replicate level '=') ++
        " " ++ String.mk c3 ++ "\n]\n\n", st1)
    else
      (String.mk (List.replicate level '=') ++ " " ++ content ++ "\n\n", st1)

/-- `strings.SplitN(s, " ", 2)[0]`. -/
def goSplitFirstToken (s : String) : String :=
  String.mk (s.data.takeWhile (fun c => c ≠ ' '))

/-- `renderCodeBlock` renders a fenced or indented code block. -/
def renderCodeBlock (info : Option String) (code : String) : String :=
  let lang := match info with
    | some infoStr => String.mk (goTrimSpace (goSplitFirstToken infoStr).data)
    | none => ""
  if lang ≠ "" then "```" ++ lang ++ "\n" ++ code ++ "```\n\n"
  else "```\n" ++ code ++ "```\n\n"

mutual

/-- The untyped inline fallback Go's renderer performs when a list item
holds a block that is neither a paragraph nor a list: `renderInlines`
recurses through the node's children, rendering whatever inline content
they hold. -/
def renderInlineFallback : Block → String
  | .paragraph ch => renderInlines ch
  | .heading _ ch => renderInlines ch
  | .list _ items => renderInlineFallbackItems items
  | .codeBlock _ _ => ""
  | .thematicBreak => ""
  | .blockquote bs => renderInlineFallbackList bs
  | .htmlBlock _ => ""

def renderInlineFallbackList : List Block → String
  | [] => ""
  | b :: rest => renderInlineFallback b ++ renderInlineFallbackList rest

def renderInlineFallbackItems : List (List Block) → String
  | [] => ""
  | item :: rest => renderInlineFallbackList item ++ renderInlineFallbackItems rest

end

mutual

/-- `renderList` renders a list node to Typst. -/
def renderList (ordered : Bool) (items : List (List Block)) : String :=
  renderListItems (if ordered then "+ " else "- ") items ++ "\n"

def renderListItems (marker : String) : List (List Block) → String
  | [] => ""
  | item :: rest => marker ++ renderListItem item ++ "\n" ++ renderListItems marker rest

/-- `renderListItem` renders a list item's content, joining the parts
with newlines. -/
def renderListItem (item : List Block) : String :=
  goJoin "\n" (renderListItemParts item)

def renderListItemParts : List Block → List String
  | [] => []
  | child :: rest =>
    let parts := renderListItemParts rest
    match child with
    | .paragraph ch =>
      String.mk (goTrimRightIn (renderInlines ch).data ['\n']) :: parts
    | .list ord items => renderList ord items :: parts
    | other =>
      let content := String.mk (goTrimRightIn (renderInlineFallback other).data ['\n'])
      if content ≠ "" then content :: parts else parts

end

/-- `strings.Split(s, "\n")`. -/
def splitNL : List Char → List (List Char)
  | [] => [[]]
  | '\n' :: rest => [] :: splitNL rest
  | c :: rest =>
    match splitNL rest with
    | [] => [[c]]
    | l :: ls => (c :: l) :: ls

/-- One blockquote child's lines, each wrapped in a quote directive. -/
def quoteLines (content : String) : String :=
  String.join ((splitNL (goTrimRightIn content.data ['\n'])).map
    (fun line => "#quote[" ++ String.mk line ++ "]\n"))

/-- `isHTMLComment` checks if a node is an HTML block whose first line
contains the given keyword. -/
def isHTMLComment (n : Block) (keyword : String) : Bool :=
  match n with
  | .htmlBlock (first :: _) => goContains first.data keyword.data
  | _ => false

mutual

/-- `renderBlock` renders a single block-level node. -/
def renderBlock (st : ConverterState) (n : Block) (inNoindent : Bool) :
    String × ConverterState :=
  match n with
  | .paragraph ch => renderParagraph st ch
  | .heading level ch => renderHeading st level ch
  | .list ord items =>
    let content := renderList ord items
    if inNoindent then
      ("#block[#set par(first-line-indent: 0pt)\n" ++ content ++ "]\n", st)
    else (content, st)
  | .codeBlock info code => (renderCodeBlock info code, st)
  | .thematicBreak => ("#line(length: 100%)\n\n", st)
  | .blockquote children => renderBlockquote st children
  | .htmlBlock _ => ("", st)

/-- `renderBlockquote` renders a blockquote: each contained block's
output, line-split and wrapped in quote directives, then a blank line. -/
def renderBlockquote (st : ConverterState) (children : List Block) :
    String × ConverterState :=
  let p := renderQuoteChildren st children
  (p.1 ++ "\n", p.2)

def renderQuoteChildren (st : ConverterState) : List Block → String × ConverterState
  | [] => ("", st)
  | child :: rest =>
    let p1 := renderBlock st child false
    let p2 := renderQuoteChildren p1.2 rest
    (quoteLines p1.1 ++ p2.1, p2.2)

end

/-- The no-indent region wrapper of `renderDocument`. -/
def noindentRegionWrap (inner : String) : String :=
  "#block[#set par(first-line-indent: 0pt)\n#block[\n" ++ inner ++ "]\n]\n"

/-- `renderDocument`'s walk: outside a no-indent region, blocks render
normally; a `noindent-start` sentinel starts collecting; the collected
output is wrapped when the `noindent-end` sentinel (or the end of the
document) arrives. -/
def renderDocAux (st : ConverterState) (inGroup : Bool) (acc : String) :
    List Block → String × ConverterState
  | [] => if inGroup then (noindentRegionWrap acc, st) else ("", st)
  | child :: rest =>
    if inGroup then
      if isHTMLComment child "noindent-end" then
        let p := renderDocAux st false "" rest
        (noindentRegionWrap acc ++ p.1, p.2)
      else
        let p1 := renderBlock st child true
        renderDocAux p1.2 true (acc ++ p1.1) rest
    else
      if isHTMLComment child "noindent-start" then
        renderDocAux st true "" rest
      else
        let p1 := renderBlock st child false
        let p2 := renderDocAux p1.2 false "" rest
        (p1.1 ++ p2.1, p2.2)

/-- `renderDocument` renders the full document body with a fresh
converter state (what `convertBody` does after parsing). -/
def renderDocument (blocks : List Block) : String × ConverterState :=
  renderDocAux initState false "" blocks

/-! ## The emitted Typst layout programs, as exact rational arithmetic

`renderSingleImage` and `renderMultiImage` emit fixed Typst programs whose
sizing decisions run in the external engine; these definitions model that
emitted arithmetic over `ℚ` (lengths in cm). -/
/-- The single-image scaling block: width-capped to 13.4 cm first, then
the height re-checked against the same cap. -/
def scaleImage (x y : ℚ) : ℚ × ℚ :=
  let p1 : ℚ × ℚ := if x > 134 / 10 then (134 / 10, y * ((134 / 10) / x)) else (x, y)
  if p1.2 > 134 / 10 then (p1.1 * ((134 / 10) / p1.2), 134 / 10) else p1

/-- `calc-row-height`: the height making the combined scaled width fill
the given total width. -/
def calcRowHeight (ratios : List ℚ) (totalWidth : ℚ) : ℚ :=
  totalWidth / ratios.sum

/-- The inner `for n in range(1, remaining.len() + 1)` loop: the first
candidate size whose row height falls below the 6 cm minimum with n > 1
(the break condition). -/
def findSplit (remaining : List ℚ) : Option Nat :=
  (List.range' 1 remaining.length).find? (fun n =>
    decide (calcRowHeight (remaining.take n) (134 / 10 - (n - 1 : ℕ) * (3 / 10)) < 6 ∧
      1 < n))

/-- The `while remaining.len() > 0` packing loop (fuel-structural; fuel
`length + 1` always suffices since a split removes at least one image). -/
def packRowsAux : Nat → List ℚ → List (List ℚ)
  | 0, _ => []
  | _, [] => []
  | fuel + 1, l =>
    match findSplit l with
    | some n => l.take (n - 1) :: packRowsAux fuel (l.drop (n - 1))
    | none => [l]

def packRows (l : List ℚ) : List (List ℚ) := packRowsAux (l.length + 1) l

/-- The row structure the emitted program computes: one row holding all
images in subfigure mode, greedy packing otherwise. -/
def multiImageRows (isSubfigure : Bool) (ratios : List ℚ) : List (List ℚ) :=
  if isSubfigure then [ratios] else packRows ratios

/-- Typst `numbering("a", n)`: bijective base-26 letter labels
(a, b, …, z, aa, …); fuel-structural, fuel `n` suffices. -/
def letterLabelAux : Nat → Nat → String
  | 0, _ => ""
  | _, 0 => ""
  | fuel + 1, n =>
    letterLabelAux fuel ((n - 1) / 26) ++
      String.mk [Char.ofNat ('a'.toNat + (n - 1) % 26)]

def letterLabel (n : Nat) : String := letterLabelAux n n

/-- The lettered sub-caption line the subfigure branch emits for the
image at zero-based index `i` with caption `c`:
`[ (#sub-label) #img-data.caption ]` with `sub-label = numbering("a", i + 1)`. -/
def subCaptionText (i : Nat) (c : String) : String :=
  " (" ++ letterLabel (i + 1) ++ ") " ++ c ++ " "

/-! ## `gongwen/main.go` — the Document Assembler (`convert`) -/
/-- The `#set document(...)` block and title line `convert` writes
verbatim. -/
def setDocumentBlock : String := "#set document(\n  title: autoTitle.replace(\"|\", \" \"),\n  author: autoAuthor,\n  keywords: \"工作总结, 年终报告\",\n  date: auto,\n)\n\n= #autoTitle.split(\"|\").map(s => s.trim()).join(linebreak())\n\n"

/-- The right-aligned signature block written when `Signature` is true. -/
def signatureBlock : String := "\n#v(18pt)\n#align(right, block[\n  #set align(center)\n  #autoAuthor \\\n  #autoDate.display(\n    \"[year]年[month padding:none]月[day padding:none]日\",\n  )\n])\n"

/-- `convert` stitches the final `.typ` output.  `templateHead` is the
embedded preamble asset; `renderedBody` stands for `convertBody(body)`
(the goldmark parse — an external library — composed with the embedded
`renderDocument`).  The user-derived `fm` fields are interpolated
directly, with no escaping. -/
def convertAssemble (templateHead : String) (fm : frontMatter)
    (renderedBody : String) : String :=
  templateHead ++
  "#let autoTitle = \"" ++ fm.Title ++ "\"\n\n" ++
  "#let autoAuthor = \"" ++ fm.Author ++ "\"\n\n" ++
  "#let autoDate = " ++ formatDate fm.Date ++ "\n\n" ++
  setDocumentBlock ++
  (if ¬ fm.Signature then "#name(autoAuthor)\n" else "") ++
  "\n" ++
  renderedBody ++
  (if fm.Signature then signatureBlock else "")

/-- Modelled from the spec: the output language's string-literal lexing.
A Typst string literal body runs to the first unescaped double quote; a
backslash escapes the following rune.  Returns the literal's content and
the remaining text after the closing quote. -/
def typstStringLex : List Char → List Char × List Char
  | [] => ([], [])
  | '\\' :: c :: rest =>
    let p := typstStringLex rest
    (c :: p.1, p.2)
  | '"' :: rest => ([], rest)
  | c :: rest =>
    let p := typstStringLex rest
    (c :: p.1, p.2)

end Presto

/-! ## Theorems -/

namespace typst

open Presto

theorem escapeString_eq_flatMap (s : String) :
    EscapeString s = String.mk (s.data.flatMap escStringChar) := by
  show String.mk _ = _
  congr 1
  induction s.data with
  | nil => rfl
  | cons c rest ih =>
    simp only [replaceAllChar, List.flatMap_cons] at *
    rw [← ih]
    by_cases h1 : c = '\\'
    · subst h1; rfl
    · by_cases h2 : c = '\"'
      · subst h2; rfl
      · by_cases h3 : c = '#'
        · subst h3; rfl
        · simp [escStringChar, h1, h2, h3]

theorem escapeContent_eq_flatMap (s : String) :
    EscapeContent s = String.mk (s.data.flatMap escContentChar) := by
  show String.mk _ = _
  congr 1
  induction s.data with
  | nil => rfl
  | cons c rest ih =>
    simp only [replaceAllChar, List.flatMap_cons] at *
    rw [← ih]
    by_cases h1 : c = '\\'
    · subst h1; rfl
    · by_cases h2 : c = ']'
      · subst h2; rfl
      · by_cases h3 : c = '#'
        · subst h3; rfl
        · simp [escContentChar, h1, h2, h3]

theorem unescape_escString (cs : List Char) :
    unescapeTypst (cs.flatMap escStringChar) = cs := by
  induction cs with
  | nil => rfl
  | cons c rest ih =>
    simp only [List.flatMap_cons]
    by_cases h1 : c = '\\'
    · subst h1; simpa [escStringChar, unescapeTypst] using ih
    · by_cases h2 : c = '\"'
      · subst h2; simpa [escStringChar, unescapeTypst] using ih
      · by_cases h3 : c = '#'
        · subst h3; simpa [escStringChar, unescapeTypst] using ih
        · simp only [escStringChar, h1, h2, h3, if_false, List.singleton_append]
          rw [unescapeTypst.eq_def]
          split
          · next heq => simp only [List.cons.injEq] at heq; exact absurd heq.1 h1
          · next heq =>
            simp only [List.cons.injEq] at heq
            rw [heq.1, ← heq.2, ih]
          · next heq => exact absurd heq (by simp)

theorem unescape_escContent (cs : List Char) :
    unescapeTypst (cs.flatMap escContentChar) = cs := by
  induction cs with
  | nil => rfl
  | cons c rest ih =>
    simp only [List.flatMap_cons]
    by_cases h1 : c = '\\'
    · subst h1; simpa [escContentChar, unescapeTypst] using ih
    · by_cases h2 : c = ']'
      · subst h2; simpa [escContentChar, unescapeTypst] using ih
      · by_cases h3 : c = '#'
        · subst h3; simpa [escContentChar, unescapeTypst] using ih
        · simp only [escContentChar, h1, h2, h3, if_false, List.singleton_append]
          rw [unescapeTypst.eq_def]
          split
          · next heq => simp only [List.cons.injEq] at heq; exact absurd heq.1 h1
          · next heq =>
            simp only [List.cons.injEq] at heq
            rw [heq.1, ← heq.2, ih]
          · next heq => exact absurd heq (by simp)

end typst

/-- C10: `EscapeString` and `EscapeContent` are injective — the decoder
`unescapeTypst` recovers the input from either escape, so escaping never
conflates two distinct user inputs. -/
theorem C10_escape_injective :
    (∀ s1 s2 : String, typst.EscapeString s1 = typst.EscapeString s2 → s1 = s2) ∧
    (∀ s1 s2 : String, typst.EscapeContent s1 = typst.EscapeContent s2 → s1 = s2) := by
  constructor
  · intro s1 s2 h
    rw [typst.escapeString_eq_flatMap, typst.escapeString_eq_flatMap] at h
    have h2 : s1.data.flatMap typst.escStringChar = s2.data.flatMap typst.escStringChar := by
      have := congrArg String.data h
      simpa using this
    have h3 : s1.data = s2.data := by
      have := congrArg typst.unescapeTypst h2
      rwa [typst.unescape_escString, typst.unescape_escString] at this
    exact String.ext h3
  · intro s1 s2 h
    rw [typst.escapeContent_eq_flatMap, typst.escapeContent_eq_flatMap] at h
    have h2 : s1.data.flatMap typst.escContentChar = s2.data.flatMap typst.escContentChar := by
      have := congrArg String.data h
      simpa using this
    have h3 : s1.data = s2.data := by
      have := congrArg typst.unescapeTypst h2
      rwa [typst.unescape_escContent, typst.unescape_escContent] at this
    exact String.ext h3

/-- Witness for C10 at a concrete input: the injectivity theorem applied to
two equal escapes yields their equality. -/
theorem C10_escape_injective_witness :
    ("a\\b\"c#" : String) = "a\\b\"c#" :=
  C10_escape_injective.1 "a\\b\"c#" "a\\b\"c#" rfl

namespace Presto

/-- If the normalised text starts with a rune other than '\n' and '\r',
the raw text starts with the same rune and normalisation continues on the
tail: collapsing "\r\n" pairs can only put '\n' or '\r' in front. -/
theorem replaceCRLF_head (cs : List Char) (c : Char)
    (hc1 : c ≠ '\n') (hc2 : c ≠ '\r')
    (h : (replaceCRLF cs).head? = some c) :
    ∃ cs', cs = c :: cs' ∧ replaceCRLF cs = c :: replaceCRLF cs' := by
  match cs with
  | [] => simp [replaceCRLF] at h
  | [d] =>
    rw [show replaceCRLF [d] = [d] from rfl] at h
    simp at h
    subst h
    exact ⟨[], rfl, rfl⟩
  | d :: e :: rest =>
    rw [replaceCRLF] at h ⊢
    by_cases hd : d = '\r' ∧ e = '\n'
    · rw [if_pos hd] at h
      simp at h
      exact absurd h.symm hc1
    · rw [if_neg hd] at h ⊢
      simp at h
      subst h
      exact ⟨e :: rest, rfl, rfl⟩

/-- If the CRLF-normalised text starts with "---" then so did the raw text. -/
theorem startsWith_dashes_of_replaceCRLF (cs : List Char)
    (h : goStartsWith (replaceCRLF cs) ['-', '-', '-'] = true) :
    goStartsWith cs ['-', '-', '-'] = true := by
  simp only [goStartsWith, decide_eq_true_eq] at *
  obtain ⟨tail, htail⟩ := h
  have h1 : (replaceCRLF cs).head? = some '-' := by rw [← htail]; rfl
  obtain ⟨cs1, hcs1, he1⟩ := replaceCRLF_head cs '-' (by decide) (by decide) h1
  rw [he1] at htail
  have h2 : (replaceCRLF cs1).head? = some '-' := by
    have := congrArg List.tail htail; simp at this; rw [← this]; rfl
  obtain ⟨cs2, hcs2, he2⟩ := replaceCRLF_head cs1 '-' (by decide) (by decide) h2
  rw [he2] at htail
  have h3 : (replaceCRLF cs2).head? = some '-' := by
    have := congrArg List.tail (congrArg List.tail htail)
    simp at this; rw [← this]; rfl
  obtain ⟨cs3, hcs3, -⟩ := replaceCRLF_head cs2 '-' (by decide) (by decide) h3
  subst hcs1 hcs2 hcs3
  exact ⟨cs3, rfl⟩

/-- C2 (amended): for every input that does not begin with "---",
`parseFrontMatter` returns the default front matter and the input with its
CRLF line endings normalised to LF as the body — which is the input itself
whenever the input contains no "\r\n". -/
theorem C2_parseFrontMatter_no_delimiter
    (yamlParse : String → Option (List (String × YamlVal))) (input : String)
    (h : goStartsWith input.data ['-', '-', '-'] = false) :
    parseFrontMatter yamlParse input =
      (defaultFrontMatter, String.mk (replaceCRLF input.data)) := by
  have hn : goStartsWith (replaceCRLF input.data) ['-', '-', '-'] = false := by
    cases hx : goStartsWith (replaceCRLF input.data) ['-', '-', '-'] with
    | false => rfl
    | true =>
      rw [startsWith_dashes_of_replaceCRLF input.data hx] at h
      exact absurd h (by simp)
  simp [parseFrontMatter, hn]

/-- Witness for C2 at a concrete input: "hello" has no leading delimiter
and comes back unchanged as the body. -/
theorem C2_parseFrontMatter_no_delimiter_witness :
    parseFrontMatter (fun _ => none) "hello" = (defaultFrontMatter, "hello") := by
  have := C2_parseFrontMatter_no_delimiter (fun _ => none) "hello" (by decide)
  simpa using this

/-- Counterexample to C2 as stated: for the delimiter-free input "a\r\nb"
the body comes back CRLF-normalised ("a\nb"), not as the unmodified input. -/
theorem C2_counterexample :
    parseFrontMatter (fun _ => none) "a\r\nb" = (defaultFrontMatter, "a\nb") ∧
    (parseFrontMatter (fun _ => none) "a\r\nb").2 ≠ "a\r\nb" := by
  constructor
  · decide
  · decide

theorem convertPunctuationL_length (cs : List Char) :
    (convertPunctuationL cs).length = cs.length := by
  simp [convertPunctuationL]

theorem convertPunctuationL_getD (cs : List Char) (i : Nat) (h : i < cs.length) :
    (convertPunctuationL cs).getD i ' ' = replaceRune cs (skipSpans cs) i := by
  rw [List.getD_eq_getElem?_getD]
  rw [List.getElem?_eq_getElem (by simpa [convertPunctuationL_length] using h)]
  simp [convertPunctuationL]

theorem takeWhile_len_le (p : Char → Bool) (l : List Char) :
    (l.takeWhile p).length ≤ l.length := by
  induction l with
  | nil => simp
  | cons a l ih =>
    rw [List.takeWhile_cons]
    split <;> simp
    all_goals omega

theorem takeWhile_sound (p : Char → Bool) (l : List Char) (k : Nat)
    (h : k < (l.takeWhile p).length) : p (l.getD k ' ') = true := by
  induction l generalizing k with
  | nil => simp at h
  | cons a l ih =>
    rw [List.takeWhile_cons] at h
    by_cases hp : p a = true
    · rw [if_pos hp] at h
      cases k with
      | zero => simpa using hp
      | succ k => simpa using ih k (by simpa using h)
    · rw [if_neg hp] at h; simp at h

theorem takeWhile_stop (p : Char → Bool) (l : List Char)
    (h : (l.takeWhile p).length < l.length) :
    p (l.getD (l.takeWhile p).length ' ') = false := by
  induction l with
  | nil => simp at h
  | cons a l ih =>
    rw [List.takeWhile_cons]
    by_cases hp : p a = true
    · rw [if_pos hp]
      rw [List.takeWhile_cons, if_pos hp] at h
      simpa using ih (by simpa using h)
    · rw [if_neg hp]
      simpa using hp

theorem takeWhile_length_congr (p : Char → Bool) (l1 l2 : List Char)
    (hlen : l1.length = l2.length)
    (hpt : ∀ k, k < l1.length → p (l1.getD k ' ') = p (l2.getD k ' ')) :
    (l1.takeWhile p).length = (l2.takeWhile p).length := by
  induction l1 generalizing l2 with
  | nil => cases l2 with
    | nil => rfl
    | cons b l2 => simp at hlen
  | cons a l1 ih =>
    cases l2 with
    | nil => simp at hlen
    | cons b l2 =>
      have h0 : p a = p b := by simpa using hpt 0 (by simp)
      rw [List.takeWhile_cons, List.takeWhile_cons, ← h0]
      split
      · simp only [List.length_cons, Nat.succ_inj]
        exact ih l2 (by simpa using hlen)
          (fun k hk => by simpa using hpt (k + 1) (by simpa using Nat.succ_lt_succ hk))
      · rfl

theorem getD_drop (cs : List Char) (m k : Nat) :
    (cs.drop m).getD k ' ' = cs.getD (m + k) ' ' := by
  rw [List.getD_eq_getElem?_getD, List.getD_eq_getElem?_getD, List.getElem?_drop]

theorem goStartsWith_bound (cs pat : List Char) (i : Nat) (hne : 0 < pat.length)
    (h : goStartsWith (cs.drop i) pat = true) : i + pat.length ≤ cs.length := by
  simp only [goStartsWith, decide_eq_true_eq] at h
  have hlen : pat.length ≤ cs.length - i := by
    simpa [List.length_drop] using h.length_le
  have hi : i < cs.length := by
    by_contra hlt
    rw [List.drop_eq_nil_of_le (by omega)] at h
    have := h.length_le
    simp at this
    omega
  omega

theorem goStartsWith_getD (cs pat : List Char) (i : Nat)
    (h : goStartsWith (cs.drop i) pat = true) (t : Nat) (ht : t < pat.length) :
    cs.getD (i + t) ' ' = pat.getD t ' ' := by
  simp only [goStartsWith, decide_eq_true_eq] at h
  obtain ⟨tail, htail⟩ := h
  rw [← getD_drop, ← htail, List.getD_eq_getElem?_getD, List.getD_eq_getElem?_getD,
    List.getElem?_append_left ht]

/-- Structure of a full `urlPattern` match at `i`: the span is non-empty,
in bounds, consists of non-whitespace runes, and ends at whitespace or at
the end of the text. -/
theorem urlMatchAt_spec (cs : List Char) (i e : Nat) (h : urlMatchAt cs i = some e) :
    i < e ∧ e ≤ cs.length ∧
    (∀ k, i ≤ k → k < e → reIsSpace (cs.getD k ' ') = false) ∧
    (e = cs.length ∨ reIsSpace (cs.getD e ' ') = true) := by
  unfold urlMatchAt at h
  cases hp : urlPrefixAt cs i with
  | none => rw [hp] at h; exact absurd h (by simp)
  | some plen =>
    rw [hp] at h
    simp only [] at h
    cases hd : (cs.drop (i + plen)).head? with
    | none => rw [hd] at h; exact absurd h (by simp)
    | some d =>
      rw [hd] at h
      simp only [] at h
      by_cases hsp : reIsSpace d = true
      · rw [if_pos hsp] at h; exact absurd h (by simp)
      · rw [if_neg hsp] at h
        simp only [Option.some.injEq] at h
        -- facts about the prefix
        have hple : 1 ≤ plen ∧ i + plen ≤ cs.length ∧
            ∀ t, t < plen → reIsSpace (cs.getD (i + t) ' ') = false := by
          unfold urlPrefixAt at hp
          split at hp
          · next hsw =>
            simp only [Option.some.injEq] at hp; subst hp
            refine ⟨by norm_num, goStartsWith_bound _ _ _ (by norm_num) hsw, ?_⟩
            intro t ht
            rw [goStartsWith_getD _ _ _ hsw t ht]
            revert ht; revert t; decide
          · split at hp
            · next hsw =>
              simp only [Option.some.injEq] at hp; subst hp
              refine ⟨by norm_num, goStartsWith_bound _ _ _ (by norm_num) hsw, ?_⟩
              intro t ht
              rw [goStartsWith_getD _ _ _ hsw t ht]
              revert ht; revert t; decide
            · split at hp
              · next hsw =>
                simp only [Option.some.injEq] at hp; subst hp
                refine ⟨by norm_num, goStartsWith_bound _ _ _ (by norm_num) hsw, ?_⟩
                intro t ht
                rw [goStartsWith_getD _ _ _ hsw t ht]
                revert ht; revert t; decide
              · split at hp
                · next hsw =>
                  simp only [Option.some.injEq] at hp; subst hp
                  refine ⟨by norm_num, goStartsWith_bound _ _ _ (by norm_num) hsw, ?_⟩
                  intro t ht
                  rw [goStartsWith_getD _ _ _ hsw t ht]
                  revert ht; revert t; decide
                · exact absurd hp (by simp)
        obtain ⟨hp1, hpb, hpestS⟩ := hple
        have hrestlen : (cs.drop (i + plen)).length = cs.length - (i + plen) :=
          List.length_drop _ _
        have hin : i + plen < cs.length := by
          by_contra hge
          rw [List.drop_eq_nil_of_le (by omega)] at hd
          simp at hd
        have hrun1 : 1 ≤ ((cs.drop (i + plen)).takeWhile (fun c => !reIsSpace c)).length := by
          rcases hr : cs.drop (i + plen) with _ | ⟨d', rest'⟩
          · rw [hr] at hd; simp at hd
          · rw [hr] at hd
            simp at hd
            rw [List.takeWhile_cons, hd, if_pos (by simpa using hsp)]
            simp
        have hrunle : ((cs.drop (i + plen)).takeWhile (fun c => !reIsSpace c)).length ≤
            (cs.drop (i + plen)).length := takeWhile_len_le _ _
        refine ⟨by omega, by omega, ?_, ?_⟩
        · intro k hk1 hk2
          by_cases hkp : k < i + plen
          · have := hpestS (k - i) (by omega)
            rwa [show i + (k - i) = k by omega] at this
          · have ht : k - (i + plen) <
                ((cs.drop (i + plen)).takeWhile (fun c => !reIsSpace c)).length := by omega
            have := takeWhile_sound _ (cs.drop (i + plen)) _ ht
            rw [getD_drop, show i + plen + (k - (i + plen)) = k by omega] at this
            simpa using this
        · by_cases hfull : ((cs.drop (i + plen)).takeWhile (fun c => !reIsSpace c)).length =
              (cs.drop (i + plen)).length
          · left; omega
          · right
            have h2 := takeWhile_stop (fun c => !reIsSpace c) (cs.drop (i + plen)) (by omega)
            rw [getD_drop] at h2
            rw [← h]
            simpa using h2

theorem closeBraceIdx_spec (cs : List Char) (j k : Nat)
    (h : closeBraceIdx cs j = some k) : j ≤ k ∧ k < cs.length := by
  unfold closeBraceIdx at h
  split at h
  · next hk =>
    simp only [Option.some.injEq] at h
    omega
  · exact absurd h (by simp)

theorem closeBraceIdx_eq_of_drop_congr (cs1 cs2 : List Char) (j : Nat)
    (hlen : cs1.length = cs2.length)
    (hpt : ∀ k, k < cs1.length →
      ((cs1.getD k ' ' = '}') ↔ (cs2.getD k ' ' = '}'))) :
    closeBraceIdx cs1 j = closeBraceIdx cs2 j := by
  have htw : ((cs1.drop j).takeWhile (fun c => c ≠ '}')).length =
      ((cs2.drop j).takeWhile (fun c => c ≠ '}')).length := by
    apply takeWhile_length_congr
    · simp [hlen]
    · intro k hk
      rw [getD_drop, getD_drop]
      have hk2 : j + k < cs1.length := by
        rw [List.length_drop] at hk
        omega
      simp only [decide_eq_decide]
      exact not_congr (hpt (j + k) hk2)
  unfold closeBraceIdx
  rw [htw, hlen]

theorem urlScanAux_wf (cs : List Char) (fuel : Nat) :
    ∀ i, ∀ sp ∈ urlScanAux cs fuel i, sp.1 < sp.2 ∧ sp.2 ≤ cs.length := by
  induction fuel with
  | zero => intro i sp hsp; simp [urlScanAux] at hsp
  | succ fuel ih =>
    intro i sp hsp
    rw [urlScanAux] at hsp
    split at hsp
    · cases hm : urlMatchAt cs i with
      | some e =>
        rw [hm] at hsp
        rcases List.mem_cons.mp hsp with rfl | hmem
        · obtain ⟨h1, h2, -, -⟩ := urlMatchAt_spec cs i e hm
          exact ⟨h1, h2⟩
        · exact ih e sp hmem
      | none =>
        rw [hm] at hsp
        exact ih (i + 1) sp hsp
    · simp at hsp

theorem markerScanAux_wf (cs : List Char) (fuel : Nat) :
    ∀ i, ∀ sp ∈ markerScanAux cs fuel i, sp.1 < sp.2 ∧ sp.2 ≤ cs.length := by
  induction fuel with
  | zero => intro i sp hsp; simp [markerScanAux] at hsp
  | succ fuel ih =>
    intro i sp hsp
    rw [markerScanAux] at hsp
    split at hsp
    · next hi =>
      split at hsp
      · cases hm : closeBraceIdx cs (i + 1) with
        | some k =>
          rw [hm] at hsp
          rcases List.mem_cons.mp hsp with rfl | hmem
          · obtain ⟨h1, h2⟩ := closeBraceIdx_spec cs (i + 1) k hm
            exact ⟨by omega, by omega⟩
          · exact ih (k + 1) sp hmem
        | none =>
          rw [hm] at hsp
          exact ih (i + 1) sp hsp
      · exact ih (i + 1) sp hsp
    · simp at hsp

theorem bytePos_succ (cs : List Char) (i : Nat) :
    bytePos cs (i + 1) =
      bytePos cs i + (if i < cs.length then (cs.getD i ' ').utf8Size else 0) := by
  unfold bytePos
  rw [List.take_succ]
  by_cases h : i < cs.length
  · rw [List.getElem?_eq_getElem h]
    simp [List.getD_eq_getElem _ _ h, h]
  · rw [List.getElem?_eq_none (by omega)]
    simp [h]

theorem bytePos_le (cs : List Char) {i j : Nat} (h : i ≤ j) :
    bytePos cs i ≤ bytePos cs j := by
  induction j, h using Nat.le_induction with
  | base => exact Nat.le_refl _
  | succ j hij ih =>
    refine Nat.le_trans ih ?_
    rw [bytePos_succ]
    omega

theorem bytePos_lt (cs : List Char) {i j : Nat} (h1 : i < j) (h2 : j ≤ cs.length) :
    bytePos cs i < bytePos cs j := by
  have hi : i < cs.length := by omega
  have step : bytePos cs i < bytePos cs (i + 1) := by
    rw [bytePos_succ, if_pos hi]
    have := Char.utf8Size_pos (cs.getD i ' ')
    omega
  exact Nat.lt_of_lt_of_le step (bytePos_le cs h1)

theorem any_congr_mem {α : Type} (l : List α) (p q : α → Bool)
    (h : ∀ a ∈ l, p a = q a) : l.any p = l.any q := by
  induction l with
  | nil => rfl
  | cons a l ih =>
    simp only [List.any_cons, h a (by simp)]
    rw [ih (fun b hb => h b (by simp [hb]))]

/-- The byte/rune bridge: the byte-offset skip test of the source equals
the rune-index skip test, for in-range rune indices. -/
theorem inSkip_bridge (cs : List Char) (i : Nat) (_h : i < cs.length) :
    inSkip (skipSpans cs) (bytePos cs i) = inSkipIdx cs i := by
  unfold inSkip skipSpans inSkipIdx
  rw [List.any_map]
  apply any_congr_mem
  intro sp hsp
  have wf : sp.1 < sp.2 ∧ sp.2 ≤ cs.length := by
    rcases List.mem_append.mp hsp with h1 | h2
    · exact urlScanAux_wf cs _ _ sp h1
    · exact markerScanAux_wf cs _ _ sp h2
  simp only [Function.comp_apply]
  by_cases h1 : sp.1 ≤ i
  · by_cases h2 : i < sp.2
    · have b1 : bytePos cs sp.1 ≤ bytePos cs i := bytePos_le cs h1
      have b2 : bytePos cs i < bytePos cs sp.2 := bytePos_lt cs h2 wf.2
      simp [h1, h2, b1, b2]
    · have b2 : bytePos cs sp.2 ≤ bytePos cs i := bytePos_le cs (by omega)
      simp [h2, show ¬ bytePos cs i < bytePos cs sp.2 by omega]
  · have b1 : bytePos cs i < bytePos cs sp.1 := bytePos_lt cs (by omega) (by omega)
    simp [h1, show ¬ bytePos cs sp.1 ≤ bytePos cs i by omega]

/-- C3: for every text, the punctuation normalizer leaves every rune whose
byte offset falls in an excluded span (URL or `{...}` marker) unchanged,
and outside the excluded spans replaces ASCII comma, semicolon, question
mark and parentheses by their full-width forms and the colon by the
full-width colon unless immediately flanked by digits; in particular
normalize("a,b?c") = "a，b？c", normalize("12:30") = "12:30", and the URL
in "见 http://a.com/x,y" (its comma included) is returned verbatim. -/
theorem C3_convertPunctuation_contract :
    (∀ s : String, ∀ i, i < s.data.length →
      ((convertPunctuation s).data.length = s.data.length ∧
       (inSkip (skipSpans s.data) (bytePos s.data i) = true →
          (convertPunctuation s).data.getD i ' ' = s.data.getD i ' ') ∧
       (inSkip (skipSpans s.data) (bytePos s.data i) = false →
         ((s.data.getD i ' ' = ',' → (convertPunctuation s).data.getD i ' ' = '，') ∧
          (s.data.getD i ' ' = ';' → (convertPunctuation s).data.getD i ' ' = '；') ∧
          (s.data.getD i ' ' = '?' → (convertPunctuation s).data.getD i ' ' = '？') ∧
          (s.data.getD i ' ' = '(' → (convertPunctuation s).data.getD i ' ' = '（') ∧
          (s.data.getD i ' ' = ')' → (convertPunctuation s).data.getD i ' ' = '）') ∧
          (s.data.getD i ' ' = ':' → digitFlanked s.data i →
            (convertPunctuation s).data.getD i ' ' = ':') ∧
          (s.data.getD i ' ' = ':' → ¬ digitFlanked s.data i →
            (convertPunctuation s).data.getD i ' ' = '：') ∧
          (s.data.getD i ' ' ∉ ([',', ';', '?', '(', ')', ':'] : List Char) →
            (convertPunctuation s).data.getD i ' ' = s.data.getD i ' '))))) ∧
    convertPunctuation "a,b?c" = "a，b？c" ∧
    convertPunctuation "12:30" = "12:30" ∧
    convertPunctuation "见 http://a.com/x,y" = "见 http://a.com/x,y" := by
  refine ⟨?_, by decide, by decide, by decide⟩
  intro s i hi
  have hdata : (convertPunctuation s).data = convertPunctuationL s.data := rfl
  refine ⟨by rw [hdata]; exact convertPunctuationL_length s.data, ?_, ?_⟩
  · intro hskip
    rw [hdata, convertPunctuationL_getD s.data i hi]
    unfold replaceRune
    rw [if_pos hskip]
  · intro hskip
    rw [hdata, convertPunctuationL_getD s.data i hi]
    unfold replaceRune
    rw [if_neg (by simp [hskip])]
    refine ⟨?_, ?_, ?_, ?_, ?_, ?_, ?_, ?_⟩
    · intro hc; rw [if_pos hc]
    · intro hc; rw [if_neg (by rw [hc]; decide), if_pos hc]
    · intro hc; rw [if_neg (by rw [hc]; decide), if_neg (by rw [hc]; decide), if_pos hc]
    · intro hc
      rw [if_neg (by rw [hc]; decide), if_neg (by rw [hc]; decide), if_neg (by rw [hc]; decide), if_pos hc]
    · intro hc
      rw [if_neg (by rw [hc]; decide), if_neg (by rw [hc]; decide), if_neg (by rw [hc]; decide),
        if_neg (by rw [hc]; decide), if_pos hc]
    · intro hc hf
      unfold digitFlanked at hf
      rw [if_neg (by rw [hc]; decide), if_neg (by rw [hc]; decide), if_neg (by rw [hc]; decide),
        if_neg (by rw [hc]; decide), if_neg (by rw [hc]; decide), if_pos hc, if_pos hf]
    · intro hc hf
      unfold digitFlanked at hf
      rw [if_neg (by rw [hc]; decide), if_neg (by rw [hc]; decide), if_neg (by rw [hc]; decide),
        if_neg (by rw [hc]; decide), if_neg (by rw [hc]; decide), if_pos hc, if_neg hf]
    · intro hne
      simp only [List.mem_cons, List.not_mem_nil, or_false, not_or] at hne
      obtain ⟨h1, h2, h3, h4, h5, h6⟩ := hne
      rw [if_neg h1, if_neg h2, if_neg h3, if_neg h4, if_neg h5, if_neg h6]

/-- Witness for C3 at a concrete instance: in "a,b?c" position 1 holds a
comma outside every excluded span, and the output holds '，' there. -/
theorem C3_convertPunctuation_contract_witness :
    (convertPunctuation "a,b?c").data.getD 1 ' ' = '，' :=
  ((C3_convertPunctuation_contract.1 "a,b?c" 1 (by decide)).2.2 (by decide)).1 (by decide)

/-- What one pass does at a position: either the rune is kept, or one of
the six half-width/full-width rewrites happened. -/
theorem out_cases (cs : List Char) (i : Nat) (hi : i < cs.length) :
    (convertPunctuationL cs).getD i ' ' = cs.getD i ' ' ∨
    (cs.getD i ' ' = ',' ∧ (convertPunctuationL cs).getD i ' ' = '，') ∨
    (cs.getD i ' ' = ';' ∧ (convertPunctuationL cs).getD i ' ' = '；') ∨
    (cs.getD i ' ' = '?' ∧ (convertPunctuationL cs).getD i ' ' = '？') ∨
    (cs.getD i ' ' = '(' ∧ (convertPunctuationL cs).getD i ' ' = '（') ∨
    (cs.getD i ' ' = ')' ∧ (convertPunctuationL cs).getD i ' ' = '）') ∨
    (cs.getD i ' ' = ':' ∧ (convertPunctuationL cs).getD i ' ' = '：') := by
  rw [convertPunctuationL_getD cs i hi]
  unfold replaceRune
  by_cases h0 : inSkip (skipSpans cs) (bytePos cs i) = true
  · rw [if_pos h0]; left; rfl
  · rw [if_neg h0]
    by_cases h1 : cs.getD i ' ' = ','
    · rw [if_pos h1]; right; left; exact ⟨h1, rfl⟩
    · rw [if_neg h1]
      by_cases h2 : cs.getD i ' ' = ';'
      · rw [if_pos h2]; right; right; left; exact ⟨h2, rfl⟩
      · rw [if_neg h2]
        by_cases h3 : cs.getD i ' ' = '?'
        · rw [if_pos h3]; right; right; right; left; exact ⟨h3, rfl⟩
        · rw [if_neg h3]
          by_cases h4 : cs.getD i ' ' = '('
          · rw [if_pos h4]; right; right; right; right; left; exact ⟨h4, rfl⟩
          · rw [if_neg h4]
            by_cases h5 : cs.getD i ' ' = ')'
            · rw [if_pos h5]; right; right; right; right; right; left; exact ⟨h5, rfl⟩
            · rw [if_neg h5]
              by_cases h6 : cs.getD i ' ' = ':'
              · rw [if_pos h6]
                by_cases h7 : 0 < i ∧ i < cs.length - 1 ∧
                    unicodeIsDigit (cs.getD (i - 1) ' ') ∧ unicodeIsDigit (cs.getD (i + 1) ' ')
                · rw [if_pos h7]; left; exact h6.symm
                · rw [if_neg h7]; right; right; right; right; right; right; exact ⟨h6, rfl⟩
              · rw [if_neg h6]; left; rfl

/-- Runes outside both rewrite alphabets are preserved exactly, in both
directions. -/
theorem stable_iff (cs : List Char) (i : Nat) (hi : i < cs.length) (c : Char)
    (hc1 : punctIn c = false) (hc2 : punctOut c = false) :
    (convertPunctuationL cs).getD i ' ' = c ↔ cs.getD i ' ' = c := by
  have hio := out_cases cs i hi
  unfold punctIn at hc1
  unfold punctOut at hc2
  simp only [Bool.or_eq_false_iff, decide_eq_false_iff_not] at hc1 hc2
  constructor
  · intro h
    rcases hio with h0 | h0 | h0 | h0 | h0 | h0 | h0
    · rw [← h0]; exact h
    all_goals { rw [h] at h0; exact absurd h0.2.symm (by tauto) }
  · intro h
    rcases hio with h0 | h0 | h0 | h0 | h0 | h0 | h0
    · rw [h0]; exact h
    all_goals { rw [h] at h0; exact absurd h0.1.symm (by tauto) }

theorem colon_back (cs : List Char) (i : Nat) (hi : i < cs.length)
    (h : (convertPunctuationL cs).getD i ' ' = ':') : cs.getD i ' ' = ':' := by
  have hio := out_cases cs i hi
  rcases hio with h0 | h0 | h0 | h0 | h0 | h0 | h0
  · rw [← h0]; exact h
  all_goals { rw [h] at h0; exact absurd h0.2.symm (by decide) }

theorem space_equiv (cs : List Char) (i : Nat) (hi : i < cs.length) :
    reIsSpace ((convertPunctuationL cs).getD i ' ') = reIsSpace (cs.getD i ' ') := by
  have hio := out_cases cs i hi
  rcases hio with h0 | h0 | h0 | h0 | h0 | h0 | h0
  · rw [h0]
  all_goals { rw [h0.1, h0.2]; decide }

theorem digit_equiv (cs : List Char) (i : Nat) (hi : i < cs.length) :
    unicodeIsDigit ((convertPunctuationL cs).getD i ' ') =
      unicodeIsDigit (cs.getD i ' ') := by
  have hio := out_cases cs i hi
  rcases hio with h0 | h0 | h0 | h0 | h0 | h0 | h0
  · rw [h0]
  all_goals { rw [h0.1, h0.2]; decide }

theorem brace_equiv (cs : List Char) (i : Nat) (hi : i < cs.length) (b : Char)
    (hb : b = '{' ∨ b = '}') :
    ((convertPunctuationL cs).getD i ' ' = b ↔ cs.getD i ' ' = b) := by
  rcases hb with rfl | rfl
  · exact stable_iff cs i hi '{' (by decide) (by decide)
  · exact stable_iff cs i hi '}' (by decide) (by decide)

/-- A rune whose byte position lies in a skip span is copied unchanged. -/
theorem skip_preserved (cs : List Char) (i : Nat) (hi : i < cs.length)
    (h : inSkipIdx cs i = true) :
    (convertPunctuationL cs).getD i ' ' = cs.getD i ' ' := by
  rw [convertPunctuationL_getD cs i hi]
  unfold replaceRune
  rw [if_pos (by rw [inSkip_bridge cs i hi]; exact h)]

theorem goStartsWith_iff (l pat : List Char) (j : Nat) (hne : 0 < pat.length) :
    goStartsWith (l.drop j) pat = true ↔
      (j + pat.length ≤ l.length ∧
        ∀ t, t < pat.length → l.getD (j + t) ' ' = pat.getD t ' ') := by
  constructor
  · intro h
    exact ⟨goStartsWith_bound _ _ _ hne h, fun t ht => goStartsWith_getD _ _ _ h t ht⟩
  · rintro ⟨hb, hp⟩
    simp only [goStartsWith, decide_eq_true_eq]
    rw [List.prefix_iff_eq_take]
    apply List.ext_getElem
    · rw [List.length_take, List.length_drop]; omega
    · intro t h1 h2
      rw [List.getElem_take, List.getElem_drop]
      have hvt := hp t (by omega)
      rw [List.getD_eq_getElem _ _ (by omega : j + t < l.length),
        List.getD_eq_getElem _ _ (by omega : t < pat.length)] at hvt
      exact hvt.symm

/-- A URL-prefix pattern found in the normalized text was present in the
source text: every rune of the four patterns either lies outside both
rewrite alphabets or is the colon, which the pass never produces. -/
theorem startsWith_transfer_back (cs : List Char) (j : Nat) (pat : List Char)
    (hne : 0 < pat.length)
    (hpat : ∀ t, t < pat.length →
      (punctIn (pat.getD t ' ') = false ∧ punctOut (pat.getD t ' ') = false) ∨
      pat.getD t ' ' = ':')
    (h : goStartsWith ((convertPunctuationL cs).drop j) pat = true) :
    goStartsWith (cs.drop j) pat = true := by
  rw [goStartsWith_iff _ _ _ hne] at h ⊢
  obtain ⟨hb, hp⟩ := h
  rw [convertPunctuationL_length] at hb
  refine ⟨hb, fun t ht => ?_⟩
  have hidx : j + t < cs.length := by omega
  have hpt := hp t ht
  rcases hpat t ht with ⟨hc1, hc2⟩ | hcol
  · exact (stable_iff cs (j + t) hidx _ hc1 hc2).mp hpt
  · rw [hcol] at hpt ⊢
    exact colon_back cs (j + t) hidx hpt

/-- A pattern present in the source text survives into the normalized text
whenever the window it occupies is copied unchanged. -/
theorem startsWith_transfer_fwd (cs : List Char) (j : Nat) (pat : List Char)
    (hne : 0 < pat.length)
    (h : goStartsWith (cs.drop j) pat = true)
    (hw : ∀ k, j ≤ k → k < j + pat.length →
      (convertPunctuationL cs).getD k ' ' = cs.getD k ' ') :
    goStartsWith ((convertPunctuationL cs).drop j) pat = true := by
  rw [goStartsWith_iff _ _ _ hne] at h ⊢
  obtain ⟨hb, hp⟩ := h
  refine ⟨by rw [convertPunctuationL_length]; exact hb, fun t ht => ?_⟩
  rw [hw (j + t) (by omega) (by omega)]
  exact hp t ht

theorem urlPrefixAt_out_imp (cs : List Char) (j plen : Nat)
    (h : urlPrefixAt (convertPunctuationL cs) j = some plen) :
    urlPrefixAt cs j = some plen := by
  unfold urlPrefixAt at h ⊢
  by_cases h1 : goStartsWith ((convertPunctuationL cs).drop j) "https://".data = true
  · rw [if_pos h1] at h
    rw [if_pos (startsWith_transfer_back cs j _ (by norm_num) (by decide) h1)]
    exact h
  · rw [if_neg h1] at h
    by_cases h2 : goStartsWith ((convertPunctuationL cs).drop j) "http://".data = true
    · rw [if_pos h2] at h
      have hcs2 := startsWith_transfer_back cs j _ (by norm_num) (by decide) h2
      have hnot1 : ¬ goStartsWith (cs.drop j) "https://".data = true := by
        intro hcs1
        have ha : cs.getD (j + 4) ' ' = ':' := by
          simpa using goStartsWith_getD cs _ j hcs2 4 (by norm_num)
        have hb : cs.getD (j + 4) ' ' = 's' := by
          simpa using goStartsWith_getD cs _ j hcs1 4 (by norm_num)
        rw [ha] at hb
        exact absurd hb (by decide)
      rw [if_neg hnot1, if_pos hcs2]
      exact h
    · rw [if_neg h2] at h
      by_cases h3 : goStartsWith ((convertPunctuationL cs).drop j) "ftp://".data = true
      · rw [if_pos h3] at h
        have hcs3 := startsWith_transfer_back cs j _ (by norm_num) (by decide) h3
        have hf : cs.getD (j + 0) ' ' = 'f' := by
          simpa using goStartsWith_getD cs _ j hcs3 0 (by norm_num)
        have hnot1 : ¬ goStartsWith (cs.drop j) "https://".data = true := by
          intro hcs1
          have hb : cs.getD (j + 0) ' ' = 'h' := by
            simpa using goStartsWith_getD cs _ j hcs1 0 (by norm_num)
          rw [hf] at hb
          exact absurd hb (by decide)
        have hnot2 : ¬ goStartsWith (cs.drop j) "http://".data = true := by
          intro hcs2
          have hb : cs.getD (j + 0) ' ' = 'h' := by
            simpa using goStartsWith_getD cs _ j hcs2 0 (by norm_num)
          rw [hf] at hb
          exact absurd hb (by decide)
        rw [if_neg hnot1, if_neg hnot2, if_pos hcs3]
        exact h
      · rw [if_neg h3] at h
        by_cases h4 : goStartsWith ((convertPunctuationL cs).drop j) "mailto:".data = true
        · rw [if_pos h4] at h
          have hcs4 := startsWith_transfer_back cs j _ (by norm_num) (by decide) h4
          have hm : cs.getD (j + 0) ' ' = 'm' := by
            simpa using goStartsWith_getD cs _ j hcs4 0 (by norm_num)
          have hnot1 : ¬ goStartsWith (cs.drop j) "https://".data = true := by
            intro hcs1
            have hb : cs.getD (j + 0) ' ' = 'h' := by
              simpa using goStartsWith_getD cs _ j hcs1 0 (by norm_num)
            rw [hm] at hb
            exact absurd hb (by decide)
          have hnot2 : ¬ goStartsWith (cs.drop j) "http://".data = true := by
            intro hcs2
            have hb : cs.getD (j + 0) ' ' = 'h' := by
              simpa using goStartsWith_getD cs _ j hcs2 0 (by norm_num)
            rw [hm] at hb
            exact absurd hb (by decide)
          have hnot3 : ¬ goStartsWith (cs.drop j) "ftp://".data = true := by
            intro hcs3
            have hb : cs.getD (j + 0) ' ' = 'f' := by
              simpa using goStartsWith_getD cs _ j hcs3 0 (by norm_num)
            rw [hm] at hb
            exact absurd hb (by decide)
          rw [if_neg hnot1, if_neg hnot2, if_neg hnot3, if_pos hcs4]
          exact h
        · rw [if_neg h4] at h
          exact absurd h (by simp)

theorem urlPrefixAt_cs_imp (cs : List Char) (j plen : Nat)
    (h : urlPrefixAt cs j = some plen)
    (hw : ∀ k, j ≤ k → k < j + plen →
      (convertPunctuationL cs).getD k ' ' = cs.getD k ' ') :
    urlPrefixAt (convertPunctuationL cs) j = some plen := by
  unfold urlPrefixAt at h ⊢
  by_cases h1 : goStartsWith (cs.drop j) "https://".data = true
  · rw [if_pos h1] at h
    simp only [Option.some.injEq] at h
    subst h
    rw [if_pos (startsWith_transfer_fwd cs j _ (by norm_num) h1 hw)]
  · rw [if_neg h1] at h
    by_cases h2 : goStartsWith (cs.drop j) "http://".data = true
    · rw [if_pos h2] at h
      simp only [Option.some.injEq] at h
      subst h
      have hno1 : ¬ goStartsWith ((convertPunctuationL cs).drop j) "https://".data = true :=
        fun hx => h1 (startsWith_transfer_back cs j _ (by norm_num) (by decide) hx)
      rw [if_neg hno1, if_pos (startsWith_transfer_fwd cs j _ (by norm_num) h2 hw)]
    · rw [if_neg h2] at h
      by_cases h3 : goStartsWith (cs.drop j) "ftp://".data = true
      · rw [if_pos h3] at h
        simp only [Option.some.injEq] at h
        subst h
        have hno1 : ¬ goStartsWith ((convertPunctuationL cs).drop j) "https://".data = true :=
          fun hx => h1 (startsWith_transfer_back cs j _ (by norm_num) (by decide) hx)
        have hno2 : ¬ goStartsWith ((convertPunctuationL cs).drop j) "http://".data = true :=
          fun hx => h2 (startsWith_transfer_back cs j _ (by norm_num) (by decide) hx)
        rw [if_neg hno1, if_neg hno2,
          if_pos (startsWith_transfer_fwd cs j _ (by norm_num) h3 hw)]
      · rw [if_neg h3] at h
        by_cases h4 : goStartsWith (cs.drop j) "mailto:".data = true
        · rw [if_pos h4] at h
          simp only [Option.some.injEq] at h
          subst h
          have hno1 : ¬ goStartsWith ((convertPunctuationL cs).drop j) "https://".data = true :=
            fun hx => h1 (startsWith_transfer_back cs j _ (by norm_num) (by decide) hx)
          have hno2 : ¬ goStartsWith ((convertPunctuationL cs).drop j) "http://".data = true :=
            fun hx => h2 (startsWith_transfer_back cs j _ (by norm_num) (by decide) hx)
          have hno3 : ¬ goStartsWith ((convertPunctuationL cs).drop j) "ftp://".data = true :=
            fun hx => h3 (startsWith_transfer_back cs j _ (by norm_num) (by decide) hx)
          rw [if_neg hno1, if_neg hno2, if_neg hno3,
            if_pos (startsWith_transfer_fwd cs j _ (by norm_num) h4 hw)]
        · rw [if_neg h4] at h
          exact absurd h (by simp)

theorem urlScanAux_succ_some (cs : List Char) (fuel i e0 : Nat)
    (hi : i < cs.length) (hm : urlMatchAt cs i = some e0) :
    urlScanAux cs (fuel + 1) i = (i, e0) :: urlScanAux cs fuel e0 := by
  rw [urlScanAux, if_pos hi, hm]

theorem urlScanAux_succ_none (cs : List Char) (fuel i : Nat)
    (hi : i < cs.length) (hm : urlMatchAt cs i = none) :
    urlScanAux cs (fuel + 1) i = urlScanAux cs fuel (i + 1) := by
  rw [urlScanAux, if_pos hi, hm]

theorem urlScanAux_stop (cs : List Char) (fuel i : Nat) (hi : ¬ i < cs.length) :
    urlScanAux cs (fuel + 1) i = [] := by
  rw [urlScanAux, if_neg hi]

theorem markerScanAux_succ_open (cs : List Char) (fuel i k : Nat)
    (hi : i < cs.length) (hb : cs.getD i ' ' = '{')
    (hc : closeBraceIdx cs (i + 1) = some k) :
    markerScanAux cs (fuel + 1) i = (i, k + 1) :: markerScanAux cs fuel (k + 1) := by
  rw [markerScanAux, if_pos hi, if_pos hb, hc]

theorem markerScanAux_succ_noclose (cs : List Char) (fuel i : Nat)
    (hi : i < cs.length) (hb : cs.getD i ' ' = '{')
    (hc : closeBraceIdx cs (i + 1) = none) :
    markerScanAux cs (fuel + 1) i = markerScanAux cs fuel (i + 1) := by
  rw [markerScanAux, if_pos hi, if_pos hb, hc]

theorem markerScanAux_succ_nobrace (cs : List Char) (fuel i : Nat)
    (hi : i < cs.length) (hb : ¬ cs.getD i ' ' = '{') :
    markerScanAux cs (fuel + 1) i = markerScanAux cs fuel (i + 1) := by
  rw [markerScanAux, if_pos hi, if_neg hb]

theorem markerScanAux_stop (cs : List Char) (fuel i : Nat) (hi : ¬ i < cs.length) :
    markerScanAux cs (fuel + 1) i = [] := by
  rw [markerScanAux, if_neg hi]

/-- Coverage: every position inside any full URL match lying at or after
the scanning position is inside some reported span — matches the scanner
skipped are nested inside spans it reported. -/
theorem urlScan_covers (cs : List Char) :
    ∀ fuel i, cs.length < i + fuel →
      ∀ j e, i ≤ j → urlMatchAt cs j = some e →
        ∀ k, j ≤ k → k < e →
          ∃ sp ∈ urlScanAux cs fuel i, sp.1 ≤ k ∧ k < sp.2 := by
  intro fuel
  induction fuel with
  | zero =>
    intro i had j e hij hm k hk1 hk2
    obtain ⟨hje, hel, -, -⟩ := urlMatchAt_spec cs j e hm
    omega
  | succ fuel ih =>
    intro i had j e hij hm k hk1 hk2
    by_cases hi : i < cs.length
    · cases hm0 : urlMatchAt cs i with
      | some e0 =>
        rw [urlScanAux_succ_some cs fuel i e0 hi hm0]
        obtain ⟨hie0, he0l, hns0, hbd0⟩ := urlMatchAt_spec cs i e0 hm0
        by_cases hje0 : e0 ≤ j
        · obtain ⟨sp, hsp, hsc⟩ :=
            ih e0 (by omega) j e hje0 hm k hk1 hk2
          exact ⟨sp, List.mem_cons_of_mem _ hsp, hsc⟩
        · push_neg at hje0
          have he_le : e ≤ e0 := by
            by_contra hgt
            push_neg at hgt
            obtain ⟨hje', hel, hnsj, hbdj⟩ := urlMatchAt_spec cs j e hm
            have hnse0 : reIsSpace (cs.getD e0 ' ') = false := hnsj e0 (by omega) (by omega)
            rcases hbd0 with h' | h'
            · omega
            · rw [h'] at hnse0; simp at hnse0
          exact ⟨(i, e0), List.mem_cons_self _ _, by omega, by omega⟩
      | none =>
        rw [urlScanAux_succ_none cs fuel i hi hm0]
        have hji : j ≠ i := by
          intro hji
          rw [hji, hm0] at hm
          simp at hm
        exact ih (i + 1) (by omega) j e (by omega) hm k hk1 hk2
    · obtain ⟨hje, hel, -, -⟩ := urlMatchAt_spec cs j e hm
      omega

/-- Positions inside a full URL match are in the rune-index skip set. -/
theorem urlMatch_in_skip (cs : List Char) (j e k : Nat)
    (hm : urlMatchAt cs j = some e) (hk1 : j ≤ k) (hk2 : k < e) :
    inSkipIdx cs k = true := by
  obtain ⟨sp, hsp, hc1, hc2⟩ :=
    urlScan_covers cs (cs.length + 1) 0 (by omega) j e (by omega) hm k hk1 hk2
  unfold inSkipIdx
  rw [List.any_eq_true]
  refine ⟨sp, List.mem_append_left _ hsp, ?_⟩
  simp [hc1, hc2]

theorem head?_drop_getD (l : List Char) (m : Nat) (h : m < l.length) :
    (l.drop m).head? = some (l.getD m ' ') := by
  rw [List.head?_drop, List.getElem?_eq_getElem h, List.getD_eq_getElem _ _ h]

theorem head?_drop_none (l : List Char) (m : Nat) (h : l.length ≤ m) :
    (l.drop m).head? = none := by
  rw [List.head?_drop]
  exact List.getElem?_eq_none h

theorem urlMatchAt_prefix_none (cs : List Char) (j : Nat)
    (hp : urlPrefixAt cs j = none) : urlMatchAt cs j = none := by
  unfold urlMatchAt
  rw [hp]

theorem urlMatchAt_prefix_some (cs : List Char) (j plen : Nat)
    (hp : urlPrefixAt cs j = some plen) :
    urlMatchAt cs j =
      match (cs.drop (j + plen)).head? with
      | none => none
      | some d =>
        if reIsSpace d then none
        else some (j + plen +
          ((cs.drop (j + plen)).takeWhile (fun c => !reIsSpace c)).length) := by
  unfold urlMatchAt
  rw [hp]

theorem urlMatchAt_some_head (cs : List Char) (j plen : Nat) (d : Char)
    (hp : urlPrefixAt cs j = some plen)
    (hd : (cs.drop (j + plen)).head? = some d) :
    urlMatchAt cs j =
      if reIsSpace d then none
      else some (j + plen +
        ((cs.drop (j + plen)).takeWhile (fun c => !reIsSpace c)).length) := by
  rw [urlMatchAt_prefix_some cs j plen hp, hd]

theorem urlMatchAt_head_none (cs : List Char) (j plen : Nat)
    (hp : urlPrefixAt cs j = some plen)
    (hd : (cs.drop (j + plen)).head? = none) :
    urlMatchAt cs j = none := by
  rw [urlMatchAt_prefix_some cs j plen hp, hd]

theorem takeWhile_pos_of_head (p : Char → Bool) (l : List Char) (d : Char)
    (hd : l.head? = some d) (hp : p d = true) : 1 ≤ (l.takeWhile p).length := by
  cases l with
  | nil => simp at hd
  | cons a l =>
    simp only [List.head?_cons, Option.some.injEq] at hd
    subst hd
    rw [List.takeWhile_cons, if_pos hp]
    simp

/-- One pass never changes where a URL match lies: `urlMatchAt` gives the
same answer on the normalized text as on the source text. -/
theorem urlMatchAt_out_eq (cs : List Char) (j : Nat) :
    urlMatchAt (convertPunctuationL cs) j = urlMatchAt cs j := by
  have hlen := convertPunctuationL_length cs
  have hrun : ∀ m : Nat,
      (((convertPunctuationL cs).drop m).takeWhile (fun c => !reIsSpace c)).length =
      ((cs.drop m).takeWhile (fun c => !reIsSpace c)).length := by
    intro m
    apply takeWhile_length_congr
    · simp [hlen]
    · intro k hk
      rw [getD_drop, getD_drop]
      have hk2 : m + k < cs.length := by
        rw [List.length_drop, hlen] at hk
        omega
      exact congrArg (fun b : Bool => !b) (space_equiv cs (m + k) hk2)
  cases hm : urlMatchAt cs j with
  | some e =>
    obtain ⟨hje, hel, hns, hbd⟩ := urlMatchAt_spec cs j e hm
    have hw : ∀ k, j ≤ k → k < e → (convertPunctuationL cs).getD k ' ' = cs.getD k ' ' := by
      intro k hk1 hk2
      exact skip_preserved cs k (by omega) (urlMatch_in_skip cs j e k hm hk1 hk2)
    cases hp : urlPrefixAt cs j with
    | none =>
      rw [urlMatchAt_prefix_none cs j hp] at hm
      exact absurd hm (by simp)
    | some plen =>
      by_cases hjp : j + plen < cs.length
      · have hd := head?_drop_getD cs (j + plen) hjp
        rw [urlMatchAt_some_head cs j plen _ hp hd] at hm
        by_cases hsp : reIsSpace (cs.getD (j + plen) ' ') = true
        · rw [if_pos hsp] at hm
          exact absurd hm (by simp)
        · rw [if_neg hsp] at hm
          simp only [Option.some.injEq] at hm
          have hrun1 : 1 ≤ ((cs.drop (j + plen)).takeWhile (fun c => !reIsSpace c)).length :=
            takeWhile_pos_of_head _ _ _ hd (by simpa using hsp)
          have hple : j + plen < e := by omega
          have hpout : urlPrefixAt (convertPunctuationL cs) j = some plen :=
            urlPrefixAt_cs_imp cs j plen hp (fun k hk1 hk2 => hw k hk1 (by omega))
          have hdout : ((convertPunctuationL cs).drop (j + plen)).head? =
              some (cs.getD (j + plen) ' ') := by
            rw [head?_drop_getD _ _ (by omega : j + plen < (convertPunctuationL cs).length)]
            rw [hw (j + plen) (by omega) hple]
          rw [urlMatchAt_some_head _ j plen _ hpout hdout, if_neg hsp, hrun (j + plen), hm]
      · rw [urlMatchAt_head_none cs j plen hp (head?_drop_none _ _ (by omega))] at hm
        exact absurd hm (by simp)
  | none =>
    cases hpo : urlPrefixAt (convertPunctuationL cs) j with
    | none => rw [urlMatchAt_prefix_none _ j hpo]
    | some plen =>
      have hp := urlPrefixAt_out_imp cs j plen hpo
      by_cases hjp : j + plen < cs.length
      · have hd := head?_drop_getD cs (j + plen) hjp
        have hdout : ((convertPunctuationL cs).drop (j + plen)).head? =
            some ((convertPunctuationL cs).getD (j + plen) ' ') :=
          head?_drop_getD _ _ (by omega : j + plen < (convertPunctuationL cs).length)
        rw [urlMatchAt_some_head cs j plen _ hp hd] at hm
        rw [urlMatchAt_some_head _ j plen _ hpo hdout]
        by_cases hsp : reIsSpace (cs.getD (j + plen) ' ') = true
        · rw [if_pos (by rw [space_equiv cs (j + plen) hjp]; exact hsp)]
        · rw [if_neg hsp] at hm
          exact absurd hm (by simp)
      · have hdout := head?_drop_none (convertPunctuationL cs) (j + plen)
          (by omega : (convertPunctuationL cs).length ≤ j + plen)
        rw [urlMatchAt_head_none _ j plen hpo hdout]

theorem urlScanAux_out_eq (cs : List Char) :
    ∀ fuel i, urlScanAux (convertPunctuationL cs) fuel i = urlScanAux cs fuel i := by
  have hlen := convertPunctuationL_length cs
  intro fuel
  induction fuel with
  | zero => intro i; rfl
  | succ fuel ih =>
    intro i
    by_cases hi : i < cs.length
    · cases hm : urlMatchAt cs i with
      | some e =>
        rw [urlScanAux_succ_some cs fuel i e hi hm,
          urlScanAux_succ_some _ fuel i e (by rw [hlen]; exact hi)
            (by rw [urlMatchAt_out_eq]; exact hm), ih e]
      | none =>
        rw [urlScanAux_succ_none cs fuel i hi hm,
          urlScanAux_succ_none _ fuel i (by rw [hlen]; exact hi)
            (by rw [urlMatchAt_out_eq]; exact hm), ih (i + 1)]
    · rw [urlScanAux_stop cs fuel i hi, urlScanAux_stop _ fuel i (by rw [hlen]; exact hi)]

theorem markerScanAux_out_eq (cs : List Char) :
    ∀ fuel i, markerScanAux (convertPunctuationL cs) fuel i = markerScanAux cs fuel i := by
  have hlen := convertPunctuationL_length cs
  have hclose : ∀ j, closeBraceIdx (convertPunctuationL cs) j = closeBraceIdx cs j := by
    intro j
    apply closeBraceIdx_eq_of_drop_congr _ _ j hlen
    intro k hk
    exact brace_equiv cs k (by rw [hlen] at hk; exact hk) '}' (Or.inr rfl)
  intro fuel
  induction fuel with
  | zero => intro i; rfl
  | succ fuel ih =>
    intro i
    by_cases hi : i < cs.length
    · by_cases hb : cs.getD i ' ' = '{'
      · have hbout : (convertPunctuationL cs).getD i ' ' = '{' :=
          (brace_equiv cs i hi '{' (Or.inl rfl)).mpr hb
        cases hc : closeBraceIdx cs (i + 1) with
        | some k =>
          rw [markerScanAux_succ_open cs fuel i k hi hb hc,
            markerScanAux_succ_open _ fuel i k (by rw [hlen]; exact hi) hbout
              (by rw [hclose]; exact hc), ih (k + 1)]
        | none =>
          rw [markerScanAux_succ_noclose cs fuel i hi hb hc,
            markerScanAux_succ_noclose _ fuel i (by rw [hlen]; exact hi) hbout
              (by rw [hclose]; exact hc), ih (i + 1)]
      · have hbout : ¬ (convertPunctuationL cs).getD i ' ' = '{' :=
          fun hx => hb ((brace_equiv cs i hi '{' (Or.inl rfl)).mp hx)
        rw [markerScanAux_succ_nobrace cs fuel i hi hb,
          markerScanAux_succ_nobrace _ fuel i (by rw [hlen]; exact hi) hbout, ih (i + 1)]
    · rw [markerScanAux_stop cs fuel i hi,
        markerScanAux_stop _ fuel i (by rw [hlen]; exact hi)]

theorem inSkipIdx_out_eq (cs : List Char) (i : Nat) :
    inSkipIdx (convertPunctuationL cs) i = inSkipIdx cs i := by
  unfold inSkipIdx urlSpans markerSpans
  rw [convertPunctuationL_length, urlScanAux_out_eq, markerScanAux_out_eq]

theorem replaceRune_id_of_not_punctIn (l : List Char) (spans : List (Nat × Nat)) (i : Nat)
    (h : punctIn (l.getD i ' ') = false) :
    replaceRune l spans i = l.getD i ' ' := by
  unfold replaceRune
  unfold punctIn at h
  simp only [Bool.or_eq_false_iff, decide_eq_false_iff_not] at h
  obtain ⟨⟨⟨⟨⟨h1, h2⟩, h3⟩, h4⟩, h5⟩, h6⟩ := h
  by_cases h0 : inSkip spans (bytePos l i) = true
  · rw [if_pos h0]
  · rw [if_neg h0, if_neg h1, if_neg h2, if_neg h3, if_neg h4, if_neg h5, if_neg h6]

theorem convertPunctuationL_idem (cs : List Char) :
    convertPunctuationL (convertPunctuationL cs) = convertPunctuationL cs := by
  have hlen := convertPunctuationL_length cs
  apply List.ext_getElem
  · rw [convertPunctuationL_length]
  · intro i h1 h2
    have hi : i < cs.length := by rwa [hlen] at h2
    have hiout : i < (convertPunctuationL cs).length := h2
    rw [← List.getD_eq_getElem _ ' ' h1, ← List.getD_eq_getElem _ ' ' h2]
    rw [convertPunctuationL_getD (convertPunctuationL cs) i hiout]
    by_cases hskip : inSkipIdx cs i = true
    · unfold replaceRune
      rw [if_pos (by rw [inSkip_bridge _ i hiout, inSkipIdx_out_eq]; exact hskip)]
    · have houtskip : ¬ inSkip (skipSpans (convertPunctuationL cs))
          (bytePos (convertPunctuationL cs) i) = true := by
        rw [inSkip_bridge _ i hiout, inSkipIdx_out_eq]
        simpa using hskip
      have hcsskip : ¬ inSkip (skipSpans cs) (bytePos cs i) = true := by
        rw [inSkip_bridge cs i hi]
        simpa using hskip
      have hov : (convertPunctuationL cs).getD i ' ' = replaceRune cs (skipSpans cs) i :=
        convertPunctuationL_getD cs i hi
      by_cases hpi : punctIn ((convertPunctuationL cs).getD i ' ') = true
      · unfold replaceRune at hov
        rw [if_neg hcsskip] at hov
        by_cases e1 : cs.getD i ' ' = ','
        · rw [if_pos e1] at hov
          rw [hov] at hpi
          exact absurd hpi (by decide)
        · rw [if_neg e1] at hov
          by_cases e2 : cs.getD i ' ' = ';'
          · rw [if_pos e2] at hov
            rw [hov] at hpi
            exact absurd hpi (by decide)
          · rw [if_neg e2] at hov
            by_cases e3 : cs.getD i ' ' = '?'
            · rw [if_pos e3] at hov
              rw [hov] at hpi
              exact absurd hpi (by decide)
            · rw [if_neg e3] at hov
              by_cases e4 : cs.getD i ' ' = '('
              · rw [if_pos e4] at hov
                rw [hov] at hpi
                exact absurd hpi (by decide)
              · rw [if_neg e4] at hov
                by_cases e5 : cs.getD i ' ' = ')'
                · rw [if_pos e5] at hov
                  rw [hov] at hpi
                  exact absurd hpi (by decide)
                · rw [if_neg e5] at hov
                  by_cases e6 : cs.getD i ' ' = ':'
                  · rw [if_pos e6] at hov
                    by_cases e7 : 0 < i ∧ i < cs.length - 1 ∧
                        unicodeIsDigit (cs.getD (i - 1) ' ') ∧
                        unicodeIsDigit (cs.getD (i + 1) ' ')
                    · rw [if_pos e7] at hov
                      obtain ⟨c1, c2, c3, c4⟩ := e7
                      unfold replaceRune
                      rw [if_neg houtskip, hov]
                      rw [if_neg (by decide), if_neg (by decide), if_neg (by decide),
                        if_neg (by decide), if_neg (by decide), if_pos rfl]
                      rw [if_pos ?flank]
                      case flank =>
                        refine ⟨c1, by rw [convertPunctuationL_length]; exact c2, ?_, ?_⟩
                        · rw [digit_equiv cs (i - 1) (by omega)]
                          exact c3
                        · rw [digit_equiv cs (i + 1) (by omega)]
                          exact c4
                    · rw [if_neg e7] at hov
                      rw [hov] at hpi
                      exact absurd hpi (by decide)
                  · rw [if_neg e6] at hov
                    rw [hov] at hpi
                    unfold punctIn at hpi
                    simp only [Bool.or_eq_true, decide_eq_true_eq] at hpi
                    tauto
      · exact replaceRune_id_of_not_punctIn _ _ i (by simpa using hpi)

/-- C4: the punctuation normalizer is idempotent — normalizing an already
normalized text changes nothing. -/
theorem C4_convertPunctuation_idem (s : String) :
    convertPunctuation (convertPunctuation s) = convertPunctuation s := by
  show String.mk (convertPunctuationL (convertPunctuationL s.data)) =
    String.mk (convertPunctuationL s.data)
  rw [convertPunctuationL_idem]

/-- C7: for a single image of positive natural size, the emitted scaling
algorithm (width capped to 13.4 cm first, height re-checked second)
produces dimensions of which neither exceeds 13.4 cm, preserving the
aspect ratio w:h (stated cross-multiplied). -/
theorem C7_scaleImage_bounds (x y : ℚ) (hx : 0 < x) (hy : 0 < y) :
    (scaleImage x y).1 ≤ 134 / 10 ∧ (scaleImage x y).2 ≤ 134 / 10 ∧
    (scaleImage x y).1 * y = (scaleImage x y).2 * x := by
  have hm : (0 : ℚ) < 134 / 10 := by norm_num
  have hx0 : x ≠ 0 := ne_of_gt hx
  have hy0 : y ≠ 0 := ne_of_gt hy
  unfold scaleImage
  by_cases h1 : x > 134 / 10
  · simp only [if_pos h1]
    by_cases h2 : y * ((134 / 10) / x) > 134 / 10
    · simp only [if_pos h2]
      have hd : (0 : ℚ) < y * ((134 / 10) / x) := by positivity
      have hd0 : y * ((134 / 10) / x) ≠ 0 := ne_of_gt hd
      refine ⟨?_, le_refl _, ?_⟩
      · have hq : (134 / 10 : ℚ) / (y * ((134 / 10) / x)) ≤ 1 :=
          (div_le_one hd).mpr (le_of_lt h2)
        calc (134 / 10 : ℚ) * ((134 / 10) / (y * ((134 / 10) / x)))
            ≤ (134 / 10 : ℚ) * 1 := by
              exact mul_le_mul_of_nonneg_left hq (le_of_lt hm)
          _ = 134 / 10 := mul_one _
      · field_simp
        ring
    · simp only [if_neg h2]
      refine ⟨le_refl _, le_of_not_lt h2, ?_⟩
      field_simp
      ring
  · simp only [if_neg h1]
    by_cases h2 : y > 134 / 10
    · simp only [if_pos h2]
      refine ⟨?_, le_refl _, ?_⟩
      · have hq : (134 / 10 : ℚ) / y ≤ 1 := (div_le_one hy).mpr (le_of_lt h2)
        calc x * ((134 / 10) / y) ≤ x * 1 :=
              mul_le_mul_of_nonneg_left hq (le_of_lt hx)
          _ = x := mul_one _
          _ ≤ 134 / 10 := le_of_not_lt h1
      · field_simp
        ring
    · simp only [if_neg h2]
      exact ⟨le_of_not_lt h1, le_of_not_lt h2, mul_comm x y⟩

/-- Witness for C7 at the concrete natural size 20 cm × 30 cm (both over
the cap): the result is (134/15, 67/5), within bounds and on the 2:3
ratio. -/
theorem C7_scaleImage_bounds_witness :
    (scaleImage 20 30).1 ≤ 134 / 10 ∧ (scaleImage 20 30).2 ≤ 134 / 10 ∧
    (scaleImage 20 30).1 * 30 = (scaleImage 20 30).2 * 20 :=
  C7_scaleImage_bounds 20 30 (by norm_num) (by norm_num)

theorem packRowsAux_nil (fuel : Nat) : packRowsAux fuel [] = [] := by
  cases fuel <;> rfl

theorem packRowsAux_cons (fuel : Nat) (x : ℚ) (rest : List ℚ) :
    packRowsAux (fuel + 1) (x :: rest) =
      match findSplit (x :: rest) with
      | some n => (x :: rest).take (n - 1) :: packRowsAux fuel ((x :: rest).drop (n - 1))
      | none => [x :: rest] := rfl

theorem findSplit_none_nil : findSplit [] = none := by decide

theorem findSplit_some_spec (l : List ℚ) (n : Nat) (h : findSplit l = some n) :
    2 ≤ n ∧ n ≤ l.length ∧
      calcRowHeight (l.take n) (134 / 10 - ((n - 1 : ℕ) : ℚ) * (3 / 10)) < 6 := by
  unfold findSplit at h
  have h1 := List.find?_some h
  have h2 := List.mem_of_find?_eq_some h
  rw [List.mem_range'] at h2
  obtain ⟨i, hi, rfl⟩ := h2
  simp only [decide_eq_true_eq] at h1
  exact ⟨by omega, by omega, h1.1⟩

theorem packRowsAux_congr (f1 : Nat) :
    ∀ (f2 : Nat) (l : List ℚ), l.length < f1 → l.length < f2 →
      packRowsAux f1 l = packRowsAux f2 l := by
  induction f1 with
  | zero => intro f2 l h1 h2; omega
  | succ f1 ih =>
    intro f2 l h1 h2
    cases l with
    | nil => rw [packRowsAux_nil, packRowsAux_nil]
    | cons x rest =>
      cases f2 with
      | zero => omega
      | succ f2 =>
        rw [packRowsAux_cons, packRowsAux_cons]
        cases hs : findSplit (x :: rest) with
        | some n =>
          obtain ⟨hn2, hnl, -⟩ := findSplit_some_spec _ _ hs
          have hd : ((x :: rest).drop (n - 1)).length < f1 := by
            rw [List.length_drop]
            simp only [List.length_cons] at h1 hnl ⊢
            omega
          have hd2 : ((x :: rest).drop (n - 1)).length < f2 := by
            rw [List.length_drop]
            simp only [List.length_cons] at h2 hnl ⊢
            omega
          show (x :: rest).take (n - 1) :: packRowsAux f1 ((x :: rest).drop (n - 1)) =
            (x :: rest).take (n - 1) :: packRowsAux f2 ((x :: rest).drop (n - 1))
          rw [ih f2 _ hd hd2]
        | none => rfl

theorem packRows_split (l : List ℚ) (n : Nat) (h : findSplit l = some n) :
    packRows l = l.take (n - 1) :: packRows (l.drop (n - 1)) := by
  cases l with
  | nil => rw [findSplit_none_nil] at h; exact absurd h (by simp)
  | cons x rest =>
    obtain ⟨hn2, hnl, -⟩ := findSplit_some_spec _ _ h
    simp only [List.length_cons] at hnl
    unfold packRows
    simp only [List.length_cons]
    rw [packRowsAux_cons, h]
    have hdl : ((x :: rest).drop (n - 1)).length = rest.length + 1 - (n - 1) := by
      rw [List.length_drop]
      simp
    show (x :: rest).take (n - 1) :: packRowsAux (rest.length + 1) ((x :: rest).drop (n - 1)) =
      (x :: rest).take (n - 1) ::
        packRowsAux (((x :: rest).drop (n - 1)).length + 1) ((x :: rest).drop (n - 1))
    exact congrArg ((x :: rest).take (n - 1) :: ·)
      (packRowsAux_congr (rest.length + 1) (((x :: rest).drop (n - 1)).length + 1)
        ((x :: rest).drop (n - 1)) (by rw [hdl]; omega) (by omega))

theorem packRows_noSplit (l : List ℚ) (hl : l ≠ []) (h : findSplit l = none) :
    packRows l = [l] := by
  cases l with
  | nil => exact absurd rfl hl
  | cons x rest =>
    unfold packRows
    rw [packRowsAux_cons, h]

theorem find?_range'_first (p : Nat → Bool) (s len n : Nat)
    (hmem : s ≤ n ∧ n < s + len) (hp : p n = true)
    (hbefore : ∀ m, s ≤ m → m < n → p m = false) :
    (List.range' s len).find? p = some n := by
  induction len generalizing s with
  | zero => omega
  | succ len ih =>
    rw [List.range'_succ, List.find?_cons]
    by_cases hs : n = s
    · subst hs
      rw [hp]
    · have hps : p s = false := hbefore s (le_refl _) (by omega)
      rw [hps]
      exact ih (s + 1) ⟨by omega, by omega⟩ (fun m hm1 hm2 => hbefore m (by omega) hm2)

theorem packRows_two_wide : packRows [2, 2] = [[2], [2]] := by
  have h1 : findSplit [2, 2] = some 2 := by
    unfold findSplit
    apply find?_range'_first _ 1 _ 2 ⟨by omega, by simp⟩
    · simp only [decide_eq_true_eq]
      refine ⟨?_, by omega⟩
      norm_num [calcRowHeight, List.sum_cons, List.sum_nil]
    · intro m hm1 hm2
      have hm : m = 1 := by omega
      subst hm
      simp
  have h2 : findSplit [(2 : ℚ)] = none := by
    unfold findSplit
    rw [List.find?_eq_none]
    intro n hmem
    rw [List.mem_range'] at hmem
    obtain ⟨i, hi, rfl⟩ := hmem
    have hi0 : i = 0 := by simpa using hi
    subst hi0
    simp
  have ht : ([2, 2] : List ℚ).take 1 = [2] := rfl
  have hd : ([2, 2] : List ℚ).drop 1 = [2] := rfl
  rw [packRows_split _ _ h1, ht, hd, packRows_noSplit [2] (by simp) h2]

/-- C8: with two or more images none carrying alt text, the emitted
program packs rows greedily — at the first candidate size n > 1 whose row
height (over the available width after (n−1) gaps) drops below 6 cm, the
row closes with n−1 images and packing continues on the remainder; if no
size triggers the back-off the whole remainder forms one row; and two
images of ratio 2 (combined row height 13.1/4 < 6) split into two rows. -/
theorem C8_greedy_packing :
    (∀ images : List (String × List Inline),
      (∀ img ∈ images, plainTextList img.2 = "") →
      ∀ ratios : List ℚ, multiImageRows (multiIsSubfigure images) ratios = packRows ratios) ∧
    (∀ (ratios : List ℚ) (n : Nat), 2 ≤ n → n ≤ ratios.length →
      calcRowHeight (ratios.take n) (134 / 10 - ((n - 1 : ℕ) : ℚ) * (3 / 10)) < 6 →
      (∀ m, 2 ≤ m → m < n →
        ¬ calcRowHeight (ratios.take m) (134 / 10 - ((m - 1 : ℕ) : ℚ) * (3 / 10)) < 6) →
      packRows ratios = ratios.take (n - 1) :: packRows (ratios.drop (n - 1))) ∧
    (∀ ratios : List ℚ, ratios ≠ [] →
      (∀ n, 2 ≤ n → n ≤ ratios.length →
        ¬ calcRowHeight (ratios.take n) (134 / 10 - ((n - 1 : ℕ) : ℚ) * (3 / 10)) < 6) →
      packRows ratios = [ratios]) ∧
    packRows [2, 2] = [[2], [2]] := by
  refine ⟨?_, ?_, ?_, packRows_two_wide⟩
  · intro images halt ratios
    have hsub : multiIsSubfigure images = false := by
      unfold multiIsSubfigure
      rw [List.any_eq_false]
      intro img hmem
      simpa using halt img hmem
    rw [hsub]
    rfl
  · intro ratios n hn2 hnl hlow hfirst
    apply packRows_split
    unfold findSplit
    apply find?_range'_first _ 1 ratios.length n ⟨by omega, by omega⟩
    · simp only [decide_eq_true_eq]
      exact ⟨hlow, by omega⟩
    · intro m hm1 hm2
      by_cases hm2' : 2 ≤ m
      · simp only [decide_eq_false_iff_not, not_and]
        intro hcontra
        exact absurd hcontra (hfirst m hm2' hm2)
      · have : m = 1 := by omega
        subst this
        simp
  · intro ratios hne hno
    apply packRows_noSplit _ hne
    unfold findSplit
    rw [List.find?_eq_none]
    intro n hmem
    rw [List.mem_range'] at hmem
    obtain ⟨i, hi, rfl⟩ := hmem
    by_cases h2 : 2 ≤ 1 + 1 * i
    · simp only [decide_eq_true_eq, not_and]
      intro hcontra
      exact absurd hcontra (hno _ h2 (by omega))
    · have : i = 0 := by omega
      subst this
      simp

/-- Witness for C8 at the concrete two-image instance: ratios [2, 2],
candidate size n = 2 triggers the back-off (height 13.1/4 < 6), so the
first row holds one image and packing continues with the second. -/
theorem C8_greedy_packing_witness :
    packRows [2, 2] = ([2, 2] : List ℚ).take 1 :: packRows (([2, 2] : List ℚ).drop 1) :=
  C8_greedy_packing.2.1 [2, 2] 2 (by omega) (by simp)
    (by norm_num [calcRowHeight, List.sum_cons, List.sum_nil])
    (fun m hm1 hm2 => absurd hm2 (by omega))

theorem string_mk_data (s : String) : String.mk s.data = s := rfl

theorem goTrimSpace_id (cs : List Char) (c d : Char)
    (hh : cs.head? = some c) (hc : goIsSpace c = false)
    (hl : cs.getLast? = some d) (hd : goIsSpace d = false) :
    goTrimSpace cs = cs := by
  unfold goTrimSpace
  have h1 : cs.dropWhile goIsSpace = cs := by
    cases cs with
    | nil => rfl
    | cons a l =>
      simp only [List.head?_cons, Option.some.injEq] at hh
      subst hh
      rw [List.dropWhile_cons, if_neg (by simp [hc])]
  rw [h1]
  have h2 : cs.reverse.dropWhile goIsSpace = cs.reverse := by
    cases hrev : cs.reverse with
    | nil => rfl
    | cons a l =>
      have ha : cs.reverse.head? = some a := by rw [hrev]; rfl
      rw [List.head?_reverse, hl] at ha
      simp only [Option.some.injEq] at ha
      subst ha
      rw [List.dropWhile_cons, if_neg (by simp [hd])]
  rw [h2, List.reverse_reverse]

theorem takeWhile_digits_append (l : List Char) (h : l.all Char.isDigit = true) :
    (l ++ ['}']).takeWhile Char.isDigit = l := by
  induction l with
  | nil => decide
  | cons a l ih =>
    simp only [List.all_cons, Bool.and_eq_true] at h
    rw [List.cons_append, List.takeWhile_cons, if_pos h.1, ih h.2]

theorem vMarkerMatch_vN (D : String) (hne : D.data ≠ [])
    (hdig : D.data.all Char.isDigit = true) :
    vMarkerMatch ('{' :: 'v' :: ':' :: (D.data ++ ['}'])) = some (some D) := by
  have hD : (D.data ++ ['}']).takeWhile Char.isDigit = D.data :=
    takeWhile_digits_append D.data hdig
  show (if 1 ≤ ((D.data ++ ['}']).takeWhile Char.isDigit).length ∧
        (D.data ++ ['}']).drop ((D.data ++ ['}']).takeWhile Char.isDigit).length = ['}']
      then some (some (String.mk ((D.data ++ ['}']).takeWhile Char.isDigit))) else none) =
    some (some D)
  rw [hD]
  rw [if_pos ⟨List.length_pos.mpr hne, by rw [List.drop_left]⟩]

theorem processMarker_vN (D : String) (hne : D.data ≠ [])
    (hdig : D.data.all Char.isDigit = true) :
    processMarker ("\x7bv:" ++ D ++ "\x7d") =
      (goJoin "\n" (List.replicate (goAtoiDigits D) "#linebreak(justify: false)") ++ "\n",
        true) := by
  have hdata : ("\x7bv:" ++ D ++ "\x7d").data = '{' :: 'v' :: ':' :: (D.data ++ ['}']) := by
    rw [String.data_append, String.data_append]
    simp
  have htrim : goTrimSpace ("\x7bv:" ++ D ++ "\x7d").data =
      '{' :: 'v' :: ':' :: (D.data ++ ['}']) := by
    rw [hdata]
    apply goTrimSpace_id _ '{' '}'
    · rfl
    · decide
    · show (('{' :: 'v' :: ':' :: D.data) ++ ['}']).getLast? = some '}'
      rw [List.getLast?_concat]
    · decide
  unfold processMarker
  rw [htrim]
  show (match vMarkerMatch (String.mk ('{' :: 'v' :: ':' :: (D.data ++ ['}']))).data with
    | some m => (goJoin "\n" (List.replicate
        (match m with | some digits => goAtoiDigits digits | none => 1)
        "#linebreak(justify: false)") ++ "\n", true)
    | none =>
      if String.mk ('{' :: 'v' :: ':' :: (D.data ++ ['}'])) = "\x7bpagebreak\x7d" then
        ("#pagebreak()\n", true)
      else if String.mk ('{' :: 'v' :: ':' :: (D.data ++ ['}'])) = "\x7bpagebreak:weak\x7d" then
        ("#pagebreak(weak: true)\n", true)
      else ("", false)) = _
  rw [show (String.mk ('{' :: 'v' :: ':' :: (D.data ++ ['}']))).data =
      '{' :: 'v' :: ':' :: (D.data ++ ['}']) from rfl]
  rw [vMarkerMatch_vN D hne hdig]

theorem renderParagraph_noimg (st : ConverterState) (children : List Inline)
    (h : collectImages children = []) :
    renderParagraph st children = renderTextParagraph st children := by
  unfold renderParagraph
  rw [h]

theorem renderTextParagraph_marker (st : ConverterState) (children : List Inline)
    (res : String)
    (hm : processMarker (String.mk (goTrimSpace (plainTextList children).data)) =
      (res, true)) :
    renderTextParagraph st children = (res, st) := by
  simp only [renderTextParagraph]
  rw [hm]
  simp

theorem goJoin_rep_length (s sep : String) (n : Nat) (hn : 1 ≤ n) :
    (goJoin sep (List.replicate n s)).length = n * s.length + (n - 1) * sep.length := by
  induction n with
  | zero => omega
  | succ m ih =>
    cases m with
    | zero => simp [goJoin]
    | succ k =>
      rw [List.replicate_succ, List.replicate_succ]
      show (s ++ sep ++ goJoin sep (s :: List.replicate k s)).length = _
      rw [← List.replicate_succ, String.length_append, String.length_append,
        ih (by omega)]
      have h1 : k + 1 - 1 = k := by omega
      have h2 : k + 1 + 1 - 1 = k + 1 := by omega
      rw [h1, h2]
      ring

/-- C5: A paragraph with no images whose trimmed plain text is exactly
`\x7bv\x7d` renders as a single `#linebreak(justify: false)` directive
(followed by a newline), and one whose trimmed plain text is
`\x7bv:D\x7d` for a nonempty digit string `D` whose value fits in a 64-bit
signed integer renders as exactly `digitsVal D` such directives joined by
newlines; the converter state is unchanged in both cases. (Amends the
original claim: the marker is only recognised in image-free paragraphs —
an image's alt text saying `\x7bv\x7d` renders as a figure instead — and
out-of-range `N` saturates at 9223372036854775807 rather than producing
`N` directives.) -/
theorem C5_v_marker_paragraph :
    (∀ (st : ConverterState) (children : List Inline),
      collectImages children = [] →
      String.mk (goTrimSpace (plainTextList children).data) = "\x7bv\x7d" →
      renderParagraph st children = ("#linebreak(justify: false)\n", st)) ∧
    (∀ (st : ConverterState) (children : List Inline) (D : String),
      collectImages children = [] →
      D.data ≠ [] → D.data.all Char.isDigit = true →
      digitsVal D ≤ 9223372036854775807 →
      String.mk (goTrimSpace (plainTextList children).data) = "\x7bv:" ++ D ++ "\x7d" →
      renderParagraph st children =
        (goJoin "\n" (List.replicate (digitsVal D) "#linebreak(justify: false)") ++ "\n",
          st)) := by
  constructor
  · intro st children himg htr
    rw [renderParagraph_noimg st children himg]
    apply renderTextParagraph_marker
    rw [htr]
    decide
  · intro st children D himg hne hdig hle htr
    rw [renderParagraph_noimg st children himg]
    apply renderTextParagraph_marker
    rw [htr, processMarker_vN D hne hdig]
    rw [show goAtoiDigits D = digitsVal D by unfold goAtoiDigits; omega]

/-- Witness for C5 at a concrete image-free paragraph `\x7bv:3\x7d`. -/
theorem C5_v_marker_paragraph_witness :
    renderParagraph initState [Inline.text "\x7bv:3\x7d" false false] =
      (goJoin "\n" (List.replicate (digitsVal "3") "#linebreak(justify: false)") ++ "\n",
        initState) :=
  C5_v_marker_paragraph.2 initState [Inline.text "\x7bv:3\x7d" false false] "3"
    rfl (by decide) (by decide) (by decide) (by decide)

/-- Counterexample to the original C5: (a) a paragraph consisting of an
image whose alt text is exactly `\x7bv\x7d` does NOT render as a single
linebreak directive (it renders as a figure), and (b) for
N = 9223372036854775808 = 2^63 the code emits 2^63 - 1 directives, which
differs from the N directives the claim promises. -/
theorem C5_v_marker_counterexample :
    ((String.mk (goTrimSpace (plainTextList
        [Inline.image "a.png" [Inline.text "\x7bv\x7d" false false]]).data) = "\x7bv\x7d") ∧
      (renderParagraph initState
        [Inline.image "a.png" [Inline.text "\x7bv\x7d" false false]]).1 ≠
        "#linebreak(justify: false)\n") ∧
    ((renderParagraph initState
        [Inline.text "\x7bv:9223372036854775808\x7d" false false]).1 =
      goJoin "\n" (List.replicate 9223372036854775807 "#linebreak(justify: false)") ++ "\n")
    ∧
    goJoin "\n" (List.replicate 9223372036854775807 "#linebreak(justify: false)") ++ "\n" ≠
      goJoin "\n" (List.replicate 9223372036854775808 "#linebreak(justify: false)") ++ "\n"
    := by
  refine ⟨⟨by decide, by decide⟩, ?_, ?_⟩
  · rw [renderParagraph_noimg initState
      [Inline.text "\x7bv:9223372036854775808\x7d" false false] rfl]
    rw [renderTextParagraph_marker initState _ _ ?hm]
    case hm =>
      have htr : String.mk (goTrimSpace (plainTextList
          [Inline.text "\x7bv:9223372036854775808\x7d" false false]).data) =
          "\x7bv:" ++ "9223372036854775808" ++ "\x7d" := by decide
      rw [htr, processMarker_vN "9223372036854775808" (by decide) (by decide)]
      rw [show goAtoiDigits "9223372036854775808" = 9223372036854775807 from by decide]
  · intro heq
    have hl := congrArg String.length heq
    rw [String.length_append, String.length_append,
      goJoin_rep_length _ _ _ (by norm_num),
      goJoin_rep_length _ _ _ (by norm_num)] at hl
    rw [show ("#linebreak(justify: false)" : String).length = 26 from by decide,
      show ("\n" : String).length = 1 from by decide] at hl
    omega

/-- C6 (amended): EVERY image-free, marker-free paragraph rendered while
the header-seen flag is still false — not only the very first paragraph of
the body — whose rendered text ends in a full-width (：) or half-width (:)
colon is wrapped as a zero-indent label line (the same
`#block[#set par(first-line-indent: 0pt)` wrapping as `\x7b.noindent\x7d`),
and the converter state is unchanged. The flag only becomes true when a
heading is rendered, so before the first sub-heading the rule applies to
all colon-terminated paragraphs, not just the opening salutation. -/
theorem C6_colon_salutation (st : ConverterState) (children : List Inline)
    (hst : st.hasSeenHeader = false)
    (himg : collectImages children = [])
    (hpm : (processMarker (String.mk (goTrimSpace (plainTextList children).data))).2 =
      false)
    (hmk : (stripTrailingMarker (String.mk (goTrimSpace (plainTextList children).data))).2 ≠
      "noindent")
    (hmk2 : (stripTrailingMarker (String.mk (goTrimSpace (plainTextList children).data))).2 ≠
      "indent")
    (hcolon : goEndsWith (goTrimSpace (renderInlines children).data) "：".data = true ∨
      goEndsWith (goTrimSpace (renderInlines children).data) ":".data = true) :
    renderParagraph st children =
      ("#block[#set par(first-line-indent: 0pt)\n#block[\n" ++ renderInlines children ++
        "\n\n]\n]\n", st) := by
  rw [renderParagraph_noimg st children himg]
  simp only [renderTextParagraph]
  rw [hpm]
  simp only [Bool.false_eq_true, if_false]
  rw [if_neg hmk, if_neg hmk2, if_pos ⟨by simp [hst], hcolon⟩]

/-- Witness for C6 at the concrete salutation paragraph `致:`. -/
theorem C6_colon_salutation_witness :
    renderParagraph initState [Inline.text "致:" false false] =
      ("#block[#set par(first-line-indent: 0pt)\n#block[\n" ++
        renderInlines [Inline.text "致:" false false] ++ "\n\n]\n]\n", initState) :=
  C6_colon_salutation initState [Inline.text "致:" false false]
    rfl rfl (by decide) (by decide) (by decide) (Or.inl (by decide))

/-- Counterexample to the "only that paragraph" part of the original C6: a
body of two colon-terminated paragraphs has BOTH wrapped as zero-indent
label lines, not only the first. -/
theorem C6_colon_salutation_counterexample :
    (renderDocument
      [Block.paragraph [Inline.text "敬爱的老师:" false false],
       Block.paragraph [Inline.text "各位:" false false]]).1 =
    "#block[#set par(first-line-indent: 0pt)\n#block[\n敬爱的老师：\n\n]\n]\n" ++
    "#block[#set par(first-line-indent: 0pt)\n#block[\n各位：\n\n]\n]\n" := by
  have hb : ∀ (s : ConverterState) (ch : List Inline) (b : Bool),
      renderBlock s (Block.paragraph ch) b = renderParagraph s ch := by
    intro s ch b
    simp only [renderBlock]
  have h1 : renderBlock initState
      (Block.paragraph [Inline.text "敬爱的老师:" false false]) false =
      ("#block[#set par(first-line-indent: 0pt)\n#block[\n敬爱的老师：\n\n]\n]\n",
        initState) := by
    rw [hb]
    decide
  have h2 : renderBlock initState
      (Block.paragraph [Inline.text "各位:" false false]) false =
      ("#block[#set par(first-line-indent: 0pt)\n#block[\n各位：\n\n]\n]\n",
        initState) := by
    rw [hb]
    decide
  show (renderBlock initState
      (Block.paragraph [Inline.text "敬爱的老师:" false false]) false).1 ++
    ((renderBlock
        (renderBlock initState
          (Block.paragraph [Inline.text "敬爱的老师:" false false]) false).2
        (Block.paragraph [Inline.text "各位:" false false]) false).1 ++ "") = _
  rw [h1]
  show ("#block[#set par(first-line-indent: 0pt)\n#block[\n敬爱的老师：\n\n]\n]\n" : String) ++
    ((renderBlock initState (Block.paragraph [Inline.text "各位:" false false]) false).1 ++ "") = _
  rw [h2]
  decide

/-- C9: a paragraph with two or more images, at least one carrying
non-empty alt text, renders in subfigure mode: the group is one subfigure
set (the emitted layout lays all ratios out as a single row), the shared
main caption is the first image's alt text, the emitted sub-captions are
lettered a, b, c, …, and the figure counter advances by exactly 1 for the
whole paragraph. -/
theorem C9_subfigure_group (st : ConverterState)
    (images : List (String × List Inline))
    (hlen : 2 ≤ images.length)
    (halt : ∃ img ∈ images, plainTextList img.2 ≠ "") :
    multiIsSubfigure images = true ∧
    (renderMultiImage st images).2.figureCounter = st.figureCounter + 1 ∧
    (∀ img0, images.head? = some img0 →
      multiMainCaption images = plainTextList img0.2) ∧
    (∀ ratios : List ℚ, multiImageRows (multiIsSubfigure images) ratios = [ratios]) ∧
    letterLabel 1 = "a" ∧ letterLabel 2 = "b" ∧ letterLabel 3 = "c" := by
  have hsub : multiIsSubfigure images = true := by
    unfold multiIsSubfigure
    rw [List.any_eq_true]
    obtain ⟨img, hmem, hne⟩ := halt
    exact ⟨img, hmem, by simpa using hne⟩
  have hcnt : (renderMultiImage st images).2.figureCounter = st.figureCounter + 1 := by
    simp only [renderMultiImage, hsub]
    simp
  have hcap : ∀ img0, images.head? = some img0 →
      multiMainCaption images = plainTextList img0.2 := by
    intro img0 h0
    cases images with
    | nil => simp at h0
    | cons a rest =>
      simp only [List.head?_cons, Option.some.injEq] at h0
      subst h0
      simp [multiMainCaption, hsub]
  have hrows : ∀ ratios : List ℚ,
      multiImageRows (multiIsSubfigure images) ratios = [ratios] := by
    intro ratios
    rw [hsub]
    rfl
  exact ⟨hsub, hcnt, hcap, hrows, by decide, by decide, by decide⟩

/-- Witness for C9 at three concrete images, the second carrying alt
text: the figure counter advances by exactly 1. -/
theorem C9_subfigure_group_witness :
    (renderMultiImage initState
      [("a.png", []), ("b.png", [Inline.text "总图" false false]),
        ("c.png", [])]).2.figureCounter = initState.figureCounter + 1 :=
  (C9_subfigure_group initState
    [("a.png", []), ("b.png", [Inline.text "总图" false false]), ("c.png", [])]
    (by decide)
    ⟨("b.png", [Inline.text "总图" false false]),
      List.mem_cons_of_mem _ (List.mem_cons_self _ _), by decide⟩).2.1

/-- C1: the Document Assembler does NOT escape user-derived text before
interpolating it into the generated Typst source.  For the title
`通知"x` (which contains the structurally significant double quote of the
output format), the assembled output interpolates the raw title into the
`#let autoTitle = "..."` line; re-lexing the emitted string literal (per
the spec's string syntax) recovers only `通知` — the quote exits the
intended string boundary — and the escaped form of the title (per the
repository's own `typst.EscapeString`, which `convert` never calls)
appears nowhere in the output, although escaping would have preserved the
boundary. -/
theorem C1_unescaped_interpolation_code_bug :
    (goStartsWith (convertAssemble "" ⟨"通知\"x", "张三", "", false⟩ "").data
      ("#let autoTitle = \"" ++ "通知\"x" ++ "\"\n\n").data = true) ∧
    (typstStringLex ((convertAssemble "" ⟨"通知\"x", "张三", "", false⟩ "").data.drop 18)).1 ≠
      ("通知\"x" : String).data ∧
    goContains (convertAssemble "" ⟨"通知\"x", "张三", "", false⟩ "").data
      (typst.EscapeString "通知\"x").data = false ∧
    (typstStringLex ((typst.EscapeString "通知\"x").data ++ '"' :: ("\n\n" : String).data)).1 =
      ("通知\"x" : String).data := by
  set_option maxRecDepth 4000 in decide

end Presto
